import Mathlib

/-!
# A verification model of `hydration-test-utils`

This file embeds the core of the `hydration-test-utils` TypeScript library in
Lean 4 and proves properties of the embedding:

* the blob codec (`src/blob.ts`): `createHydrationBlob` / `decodeHydrationBlob`
  with the URL-safe base64 layer (`encodeUrlSafeBase64` / `decodeUrlSafeBase64`)
  together with models of the host primitives they call
  (`JSON.stringify`, `JSON.parse`, UTF-8 encoding and decoding, the Node
  `Buffer` base64 decoder and the browser `atob` decoder);
* the registry hydrator (`src/hydrate.ts`): `hydrateFromEncodedBlob`;
* the persisted-atom readiness barrier (`src/wait.ts`):
  `waitForPersistedAtomsFromRegistry`, with promise settlement and the
  timeout race driven by an explicit scheduler oracle;
* the bootstrap orchestrator (`src/bootstrap.ts`): `bootstrapHydration` with
  its `hashBlob` replay key.

Modelling conventions, fixed once here:

* JS strings are modelled as `List Char` (Unicode scalar values).  Lone
  UTF-16 surrogates, which a JS string may contain, are not representable;
  where the real code would produce one (a lone `\uXXXX` surrogate escape in
  `JSON.parse` input) the model produces U+FFFD.
* JSON numbers are modelled as integers (`Int`): IEEE-754 doubles are out of
  scope, so JSON texts with fractional or exponent number literals fall
  outside the model and the model parser rejects them.  `JSON.stringify` of
  an integer prints its decimal form, which the model reproduces.
* JS objects are modelled as ordered association lists.  A JS object cannot
  hold two properties with the same key, so model values whose object key
  lists are duplicate-free (`Json.wf`) are exactly the serializable JS
  values; the model parser keeps members in textual order.
* `undefined` is not a JSON value and `JSON.stringify` drops
  `undefined`-valued object properties, so the model value type has no
  `undefined` constructor: model values are exactly the post-drop values.
-/

deriving instance DecidableEq for Except

namespace HTU

/-- A JS string, as a list of Unicode scalar values. -/
abbrev Str := List Char

/-- The decoded form of a JSON document, as produced by `JSON.parse`:
`null`, booleans, (integer) numbers, strings, arrays and objects. -/
inductive Json where
  | null
  | bool (b : Bool)
  | num (n : Int)
  | str (s : Str)
  | arr (items : List Json)
  | obj (members : List (Str × Json))
mutual

/-- Boolean equality on model values (the derive handler does not cover this
nested inductive, so the instance is built by hand below). -/
def jeq : Json → Json → Bool
  | .null, .null => true
  | .bool a, .bool b => a = b
  | .num a, .num b => a = b
  | .str a, .str b => a = b
  | .arr a, .arr b => jeqList a b
  | .obj a, .obj b => jeqMembers a b
  | _, _ => false

/-- `jeq` pointwise on lists. -/
def jeqList : List Json → List Json → Bool
  | [], [] => true
  | a :: as, b :: bs => jeq a b && jeqList as bs
  | _, _ => false

/-- `jeq` pointwise on member lists, comparing keys as well. -/
def jeqMembers : List (Str × Json) → List (Str × Json) → Bool
  | [], [] => true
  | (k, v) :: as, (k2, v2) :: bs => k = k2 && jeq v v2 && jeqMembers as bs
  | _, _ => false

end

mutual

theorem jeq_iff : ∀ a b : Json, jeq a b = true ↔ a = b
  | .null, b => by cases b <;> simp [jeq]
  | .bool a, b => by cases b <;> simp [jeq]
  | .num a, b => by cases b <;> simp [jeq]
  | .str a, b => by cases b <;> simp [jeq]
  | .arr a, b => by
      cases b <;> simp [jeq]
      exact jeqList_iff a _
  | .obj a, b => by
      cases b <;> simp [jeq]
      exact jeqMembers_iff a _

theorem jeqList_iff : ∀ a b : List Json, jeqList a b = true ↔ a = b
  | [], b => by cases b <;> simp [jeqList]
  | x :: xs, b => by
      cases b with
      | nil => simp [jeqList]
      | cons y ys => simp [jeqList, jeq_iff x y, jeqList_iff xs ys]

theorem jeqMembers_iff : ∀ a b : List (Str × Json), jeqMembers a b = true ↔ a = b
  | [], b => by cases b <;> simp [jeqMembers]
  | (k, v) :: xs, b => by
      cases b with
      | nil => simp [jeqMembers]
      | cons y ys =>
          obtain ⟨k2, v2⟩ := y
          simp [jeqMembers, jeq_iff v v2, jeqMembers_iff xs ys, and_assoc]

end

instance : DecidableEq Json := fun a b => decidable_of_iff _ (jeq_iff a b)

mutual

/-- Well-formedness of a model value as the image of a real JS value: every
object in it has pairwise distinct keys (a JS object cannot have two
properties with one name). -/
def Json.wf : Json → Bool
  | .null => true
  | .bool _ => true
  | .num _ => true
  | .str _ => true
  | .arr items => Json.wfList items
  | .obj members => decide (members.map Prod.fst).Nodup && Json.wfMembers members

/-- `Json.wf` on every element of an array. -/
def Json.wfList : List Json → Bool
  | [] => true
  | x :: xs => x.wf && Json.wfList xs

/-- `Json.wf` on every member value of an object. -/
def Json.wfMembers : List (Str × Json) → Bool
  | [] => true
  | (_, v) :: ms => v.wf && Json.wfMembers ms

end

/-! ## Decimal digits

`JSON.stringify` prints an integer-valued number as an optional `-` sign
followed by decimal digits.  The digit run is built with explicit fuel so the
definition is structurally recursive and kernel-evaluable. -/

/-- The character for the decimal digit `d` (`d < 10`). -/
def decDigitChar (d : Nat) : Char := Char.ofNat (48 + d)

/-- Decimal digits of `n`, most significant first, with recursion fuel. -/
def natDecWith : Nat → Nat → Str
  | 0, _ => []
  | fuel + 1, n =>
      if n < 10 then [decDigitChar n]
      else natDecWith fuel (n / 10) ++ [decDigitChar (n % 10)]

/-- Decimal digits of `n`, most significant first (`n + 1` fuel always
suffices since a number has no more digits than its own size). -/
def natDec (n : Nat) : Str := natDecWith (n + 1) n

/-- Decimal form of an integer: optional minus sign, then digits. -/
def intDec (i : Int) : Str :=
  if i < 0 then '-' :: natDec i.natAbs else natDec i.natAbs

/-! ## `JSON.stringify`

Model of the host `JSON.stringify` restricted to the value model above: no
spacing, object members in insertion order, strings quoted with the standard
escape table (`"`, `\`, `\b`, `\t`, `\n`, `\f`, `\r`, and `\u00xx` for the
remaining control characters; all other scalars are emitted literally). -/

/-- Lowercase hexadecimal digit character for `d < 16`. -/
def hexDigitChar (d : Nat) : Char :=
  if d < 10 then Char.ofNat (48 + d) else Char.ofNat (87 + d)

/-- The open-brace character, `\x7b`. -/
def braceL : Char := Char.ofNat 123

/-- The close-brace character, `\x7d`. -/
def braceR : Char := Char.ofNat 125

/-- How `JSON.stringify` emits one character inside a string literal. -/
def escChar (c : Char) : Str :=
  if c = '"' then ['\\', '"']
  else if c = '\\' then ['\\', '\\']
  else if c.toNat = 8 then ['\\', 'b']
  else if c.toNat = 9 then ['\\', 't']
  else if c.toNat = 10 then ['\\', 'n']
  else if c.toNat = 12 then ['\\', 'f']
  else if c.toNat = 13 then ['\\', 'r']
  else if c.toNat < 32 then
    ['\\', 'u', '0', '0', hexDigitChar (c.toNat / 16), hexDigitChar (c.toNat % 16)]
  else [c]

/-- A string body, escaped character by character. -/
def escStr : Str → Str
  | [] => []
  | c :: cs => escChar c ++ escStr cs

/-- A quoted JSON string literal. -/
def quoteStr (s : Str) : Str := '"' :: (escStr s ++ ['"'])

mutual

/-- The JSON text of a value (model of `JSON.stringify`). -/
def jsonStringify : Json → Str
  | .null => "null".toList
  | .bool true => "true".toList
  | .bool false => "false".toList
  | .num i => intDec i
  | .str s => quoteStr s
  | .arr items => '[' :: (stringifyItems items ++ [']'])
  | .obj members => braceL :: (stringifyMembers members ++ [braceR])

/-- Array items, comma separated. -/
def stringifyItems : List Json → Str
  | [] => []
  | x :: xs => jsonStringify x ++ stringifyItemsTail xs

/-- The `,item` tail of an item list. -/
def stringifyItemsTail : List Json → Str
  | [] => []
  | x :: xs => ',' :: (jsonStringify x ++ stringifyItemsTail xs)

/-- Object members, comma separated, each as `"key":value`. -/
def stringifyMembers : List (Str × Json) → Str
  | [] => []
  | (k, v) :: ms => quoteStr k ++ ':' :: (jsonStringify v ++ stringifyMembersTail ms)

/-- The `,"key":value` tail of a member list. -/
def stringifyMembersTail : List (Str × Json) → Str
  | [] => []
  | (k, v) :: ms => ',' :: (quoteStr k ++ ':' :: (jsonStringify v ++ stringifyMembersTail ms))

end

/-! ## `JSON.parse`

Model of the host `JSON.parse`, restricted to the value model: a recursive
descent parser over the character list, total by explicit fuel.  Failure is
`none` (the host throws `SyntaxError`; only the fact of failure is used).
Deviations, both noted in the header: number literals with a fraction or
exponent are rejected instead of producing a double, and a `\uXXXX` escape
that is a lone surrogate produces U+FFFD instead of a lone UTF-16 unit. -/

/-- Decimal digit test. -/
def isDecDigit (c : Char) : Bool := 48 ≤ c.toNat && c.toNat ≤ 57

/-- JSON insignificant whitespace. -/
def jsonWsChar (c : Char) : Bool := c = ' ' || c = '\t' || c = '\n' || c = '\r'

/-- Drop leading JSON whitespace. -/
def dropWs : Str → Str
  | [] => []
  | c :: cs => if jsonWsChar c then dropWs cs else c :: cs

/-- Split off the leading run of decimal digits. -/
def grabDigits : Str → Str × Str
  | [] => ([], [])
  | c :: cs =>
      if isDecDigit c then
        let (ds, rest) := grabDigits cs
        (c :: ds, rest)
      else ([], c :: cs)

/-- The number a digit run denotes. -/
def digitsVal (ds : Str) : Nat := ds.foldl (fun acc c => acc * 10 + (c.toNat - 48)) 0

/-- The digit run of an integer literal after the optional sign: a nonempty
digit run whose value gets the sign `neg`.  A following `.`, `e` or `E`
would start a fraction or exponent, which the integer-only number model
cannot represent, so such literals are rejected. -/
def parseIntAfter (neg : Bool) (ds cs2 : Str) : Option (Int × Str) :=
  if ds.isEmpty then none
  else
    match cs2 with
    | c :: _ =>
        if c = '.' || c = 'e' || c = 'E' then none
        else some ((if neg then -1 else 1) * (digitsVal ds : Int), cs2)
    | [] => some ((if neg then -1 else 1) * (digitsVal ds : Int), cs2)

/-- The digit run and what follows it, handed to `parseIntAfter`. -/
def parseIntTail (neg : Bool) (cs1 : Str) : Option (Int × Str) :=
  parseIntAfter neg (grabDigits cs1).1 (grabDigits cs1).2

/-- Parse an integer literal: optional `-`, then a nonempty digit run. -/
def parseIntLit (cs : Str) : Option (Int × Str) :=
  match cs with
  | '-' :: r => parseIntTail true r
  | _ => parseIntTail false cs

/-- The value of one hexadecimal digit character. -/
def hexNibble (c : Char) : Option Nat :=
  if 48 ≤ c.toNat && c.toNat ≤ 57 then some (c.toNat - 48)
  else if 97 ≤ c.toNat && c.toNat ≤ 102 then some (c.toNat - 87)
  else if 65 ≤ c.toNat && c.toNat ≤ 70 then some (c.toNat - 55)
  else none

/-- The value of a `\uXXXX` escape's four hexadecimal digits. -/
def hexQuad (a b c d : Char) : Option Nat := do
  let va ← hexNibble a
  let vb ← hexNibble b
  let vc ← hexNibble c
  let vd ← hexNibble d
  return ((va * 16 + vb) * 16 + vc) * 16 + vd

/-- The single-character escapes JSON allows after a backslash. -/
def simpleEsc (c : Char) : Option Char :=
  if c = '"' then some '"'
  else if c = '\\' then some '\\'
  else if c = '/' then some '/'
  else if c = 'b' then some (Char.ofNat 8)
  else if c = 'f' then some (Char.ofNat 12)
  else if c = 'n' then some '\n'
  else if c = 'r' then some '\r'
  else if c = 't' then some '\t'
  else none

/-- U+FFFD, the replacement character. -/
def replChar : Char := Char.ofNat 0xFFFD

/-- High surrogate test on a code value. -/
def isHighSur (n : Nat) : Bool := 0xD800 ≤ n && n ≤ 0xDBFF

/-- Low surrogate test on a code value. -/
def isLowSur (n : Nat) : Bool := 0xDC00 ≤ n && n ≤ 0xDFFF

/-- The scalar a `\uXXXX` value denotes on its own: itself if it is a valid
scalar, U+FFFD if it is a surrogate half (a lone UTF-16 unit, which the
scalar-based string model cannot hold). -/
def escScalar (n : Nat) : Char :=
  if isHighSur n || isLowSur n then replChar else Char.ofNat n

/-- One step of the string-literal scanner: the closing quote, a run of
scalars produced by one (possibly escaped) input unit, or a failure. -/
inductive PsbStep where
  | close (rest : Str)
  | emit (out rest : Str)
  | bad

/-- The scanner step for a `\uXXXX` escape: a high surrogate immediately
followed by a `\uXXXX` low surrogate combines into one scalar, as
`JSON.parse` combines UTF-16 halves; a lone half becomes U+FFFD. -/
def psbEscU (a b c d : Char) (rest : Str) : PsbStep :=
  match hexQuad a b c d with
  | none => .bad
  | some n =>
      if isHighSur n then
        match rest with
        | '\\' :: 'u' :: a2 :: b2 :: c2 :: d2 :: rest2 =>
            match hexQuad a2 b2 c2 d2 with
            | some m =>
                if isLowSur m then
                  .emit [Char.ofNat (0x10000 + (n - 0xD800) * 1024 + (m - 0xDC00))] rest2
                else .emit [replChar, escScalar m] rest2
            | none => .bad
        | other => .emit [replChar] other
      else .emit [escScalar n] rest

/-- One step of the string-literal scanner: an unescaped control character
or an invalid escape fails, anything else closes the literal or emits
scalars. -/
def psbStep : Str → PsbStep
  | '"' :: rest => .close rest
  | '\\' :: 'u' :: a :: b :: c :: d :: rest => psbEscU a b c d rest
  | '\\' :: e :: rest =>
      match simpleEsc e with
      | some ch => .emit [ch] rest
      | none => .bad
  | c :: rest => if c.toNat < 32 then .bad else .emit [c] rest
  | [] => .bad

/-- The string-literal scanner loop with explicit fuel (each step consumes
at least one input character, so input length plus one is always enough). -/
def parseStringBodyWith : Nat → Str → Str → Option (Str × Str)
  | 0, _, _ => none
  | fuel + 1, acc, cs =>
      match psbStep cs with
      | .close rest => some (acc.reverse, rest)
      | .emit out rest => parseStringBodyWith fuel (out.reverse ++ acc) rest
      | .bad => none

/-- Parse the body of a string literal after the opening quote, returning the
string and the input after the closing quote.  An unescaped control
character, an invalid escape, or a missing closing quote fails. -/
def parseStringBody (acc cs : Str) : Option (Str × Str) :=
  parseStringBodyWith (cs.length + 1) acc cs

mutual

/-- Parse one JSON value after optional leading whitespace. -/
def parseVal : Nat → Str → Option (Json × Str)
  | 0, _ => none
  | fuel + 1, cs =>
      match dropWs cs with
      | 'n' :: 'u' :: 'l' :: 'l' :: r => some (.null, r)
      | 't' :: 'r' :: 'u' :: 'e' :: r => some (.bool true, r)
      | 'f' :: 'a' :: 'l' :: 's' :: 'e' :: r => some (.bool false, r)
      | '"' :: r =>
          match parseStringBody [] r with
          | some (s, r2) => some (.str s, r2)
          | none => none
      | '[' :: r =>
          match dropWs r with
          | ']' :: r2 => some (.arr [], r2)
          | other =>
              match parseItems fuel other with
              | some (items, r2) => some (.arr items, r2)
              | none => none
      | c :: r =>
          if c = braceL then
            match dropWs r with
            | d :: r2 =>
                if d = braceR then some (.obj [], r2)
                else
                  match parseMembers fuel (d :: r2) with
                  | some (ms, r3) => some (.obj ms, r3)
                  | none => none
            | [] => none
          else if c = '-' || isDecDigit c then
            match parseIntLit (c :: r) with
            | some (i, r2) => some (.num i, r2)
            | none => none
          else none
      | [] => none

/-- Parse one or more comma-separated array items up to the closing `]`. -/
def parseItems : Nat → Str → Option (List Json × Str)
  | 0, _ => none
  | fuel + 1, cs =>
      match parseVal fuel cs with
      | none => none
      | some (v, r) =>
          match dropWs r with
          | ',' :: r2 =>
              match parseItems fuel r2 with
              | some (vs, r3) => some (v :: vs, r3)
              | none => none
          | ']' :: r2 => some ([v], r2)
          | _ => none

/-- Parse one or more comma-separated `"key":value` members up to the
closing brace.  Members are kept in textual order; the JS collapse of
duplicate keys is not modelled (see the header). -/
def parseMembers : Nat → Str → Option (List (Str × Json) × Str)
  | 0, _ => none
  | fuel + 1, cs =>
      match dropWs cs with
      | '"' :: r =>
          match parseStringBody [] r with
          | none => none
          | some (k, r1) =>
              match dropWs r1 with
              | ':' :: r2 =>
                  match parseVal fuel r2 with
                  | none => none
                  | some (v, r3) =>
                      match dropWs r3 with
                      | ',' :: r4 =>
                          match parseMembers fuel r4 with
                          | some (ms, r5) => some ((k, v) :: ms, r5)
                          | none => none
                      | d :: r4 =>
                          if d = braceR then some ([(k, v)], r4) else none
                      | [] => none
              | _ => none
      | _ => none

end

/-- Parse a complete JSON document (model of `JSON.parse`): one value, with
nothing but whitespace after it. -/
def jsonParse (cs : Str) : Option Json :=
  match parseVal (cs.length + 1) cs with
  | some (j, r) => if (dropWs r).isEmpty then some j else none
  | none => none

/-! ## UTF-8

`encodeUrlSafeBase64` encodes the JSON text's UTF-8 bytes
(`Buffer.from(json, 'utf-8')` in Node, `TextEncoder` in the browser — both
standard UTF-8), and `decodeUrlSafeBase64` decodes bytes back
(`buffer.toString('utf-8')` / `TextDecoder`), which replace invalid
sequences with U+FFFD rather than failing.  Bytes are `Nat`s below `256`. -/

/-- The UTF-8 bytes of one scalar. -/
def utf8Char (c : Char) : List Nat :=
  let n := c.toNat
  if n < 0x80 then [n]
  else if n < 0x800 then [0xC0 + n / 64, 0x80 + n % 64]
  else if n < 0x10000 then [0xE0 + n / 4096, 0x80 + n / 64 % 64, 0x80 + n % 64]
  else [0xF0 + n / 262144, 0x80 + n / 4096 % 64, 0x80 + n / 64 % 64, 0x80 + n % 64]

/-- The UTF-8 bytes of a string. -/
def utf8Encode : Str → List Nat
  | [] => []
  | c :: cs => utf8Char c ++ utf8Encode cs

/-- Continuation byte test: `0x80 ≤ b ≤ 0xBF`. -/
def contByte (b : Nat) : Bool := 0x80 ≤ b && b ≤ 0xBF

/-- Valid second byte after a three-byte lead (tighter on `0xE0` to rule out
overlong forms and on `0xED` to rule out surrogates). -/
def lead3Ok (b b1 : Nat) : Bool :=
  if b = 0xE0 then 0xA0 ≤ b1 && b1 ≤ 0xBF
  else if b = 0xED then 0x80 ≤ b1 && b1 ≤ 0x9F
  else contByte b1

/-- Valid second byte after a four-byte lead (tighter on `0xF0` and `0xF4`
to rule out overlong forms and scalars beyond U+10FFFF). -/
def lead4Ok (b b1 : Nat) : Bool :=
  if b = 0xF0 then 0x90 ≤ b1 && b1 ≤ 0xBF
  else if b = 0xF4 then 0x80 ≤ b1 && b1 ≤ 0x8F
  else contByte b1

/-- One step of UTF-8 decoding with U+FFFD replacement, as `TextDecoder`
and `buffer.toString('utf-8')` perform it: decode one scalar from lead byte
`b` and following bytes `bs`, or emit U+FFFD for a maximal invalid prefix,
returning the decoded character and the bytes decoding resumes at.  At
least one byte is always consumed. -/
def utf8Step (b : Nat) (bs : List Nat) : Char × List Nat :=
  if b < 0x80 then (Char.ofNat b, bs)
  else if b < 0xC2 then (replChar, bs)
  else if b ≤ 0xDF then
    match bs with
    | b1 :: rest =>
        if contByte b1 then (Char.ofNat ((b - 0xC0) * 64 + (b1 - 0x80)), rest)
        else (replChar, b1 :: rest)
    | [] => (replChar, [])
  else if b ≤ 0xEF then
    match bs with
    | b1 :: b2 :: rest =>
        if lead3Ok b b1 then
          if contByte b2 then
            (Char.ofNat ((b - 0xE0) * 4096 + (b1 - 0x80) * 64 + (b2 - 0x80)), rest)
          else (replChar, b2 :: rest)
        else (replChar, b1 :: b2 :: rest)
    | [b1] => if lead3Ok b b1 then (replChar, []) else (replChar, [b1])
    | [] => (replChar, [])
  else if b ≤ 0xF4 then
    match bs with
    | b1 :: b2 :: b3 :: rest =>
        if lead4Ok b b1 then
          if contByte b2 then
            if contByte b3 then
              (Char.ofNat
                  ((b - 0xF0) * 262144 + (b1 - 0x80) * 4096 + (b2 - 0x80) * 64 + (b3 - 0x80)),
                rest)
            else (replChar, b3 :: rest)
          else (replChar, b2 :: b3 :: rest)
        else (replChar, b1 :: b2 :: b3 :: rest)
    | [b1, b2] =>
        if lead4Ok b b1 then
          if contByte b2 then (replChar, []) else (replChar, [b2])
        else (replChar, [b1, b2])
    | [b1] => if lead4Ok b b1 then (replChar, []) else (replChar, [b1])
    | [] => (replChar, [])
  else (replChar, bs)

/-- The UTF-8 replacement decoder's loop, fuel-structural; one byte list
element is consumed per step at least, so `bytes.length` fuel suffices. -/
def utf8DecodeWith : Nat → List Nat → Str
  | 0, _ => []
  | _ + 1, [] => []
  | fuel + 1, b :: bs =>
      let (c, rest) := utf8Step b bs
      c :: utf8DecodeWith fuel rest

/-- UTF-8 decoding with U+FFFD replacement. -/
def utf8Decode (bytes : List Nat) : Str := utf8DecodeWith bytes.length bytes

/-! ## Base64 and the URL-safe layer (`src/blob.ts`)

The base64 core is a host facility (`Buffer` / `btoa` / `atob`); the URL-safe
substitutions and (un)padding around it are the repository's own code in
`encodeUrlSafeBase64` / `decodeUrlSafeBase64`.  On encode, Node and the
browser agree byte for byte.  On decode they differ: `Buffer.from(str,
'base64')` silently skips characters outside the alphabet and never throws
(the repository's own test suite pins `decodeUrlSafeBase64('!@#$%') = ''`),
while `atob` throws on them.  The decoder therefore takes the environment as
a parameter. -/

/-- The host environment branch taken by `decodeUrlSafeBase64`'s
`typeof Buffer` / `typeof TextDecoder` checks.  (The third, legacy
`escape`-based fallback for pre-`TextDecoder` browsers is not modelled.) -/
inductive HostEnv where
  | node
  | browser
deriving DecidableEq

/-- The character of a six-bit group in the standard base64 alphabet. -/
def sextetChar (s : Nat) : Char :=
  if s < 26 then Char.ofNat (65 + s)
  else if s < 52 then Char.ofNat (97 + (s - 26))
  else if s < 62 then Char.ofNat (48 + (s - 52))
  else if s = 62 then '+'
  else '/'

/-- The six-bit value of a standard-alphabet character, `none` outside the
alphabet (`=` included). -/
def charSextet (c : Char) : Option Nat :=
  if 65 ≤ c.toNat && c.toNat ≤ 90 then some (c.toNat - 65)
  else if 97 ≤ c.toNat && c.toNat ≤ 122 then some (c.toNat - 97 + 26)
  else if 48 ≤ c.toNat && c.toNat ≤ 57 then some (c.toNat - 48 + 52)
  else if c = '+' then some 62
  else if c = '/' then some 63
  else none

/-- Bytes to six-bit groups: each 3-byte block yields 4 sextets; a final
1-byte or 2-byte block yields 2 or 3 sextets (zero-filled low bits). -/
def bytesToSextets : List Nat → List Nat
  | [] => []
  | [b0] => [b0 / 4, b0 % 4 * 16]
  | [b0, b1] => [b0 / 4, b0 % 4 * 16 + b1 / 16, b1 % 16 * 4]
  | b0 :: b1 :: b2 :: rest =>
      b0 / 4 :: (b0 % 4 * 16 + b1 / 16) :: (b1 % 16 * 4 + b2 / 64) :: b2 % 64
        :: bytesToSextets rest

/-- Six-bit groups back to bytes: each 4-sextet block yields 3 bytes; a
final 2- or 3-sextet block yields 1 or 2 bytes (low bits discarded, as both
`Buffer` and forgiving-base64 `atob` do); a lone trailing sextet yields
nothing. -/
def sextetsToBytes : List Nat → List Nat
  | s0 :: s1 :: s2 :: s3 :: rest =>
      (s0 * 4 + s1 / 16) :: (s1 % 16 * 16 + s2 / 4) :: (s2 % 4 * 64 + s3) :: sextetsToBytes rest
  | [s0, s1] => [s0 * 4 + s1 / 16]
  | [s0, s1, s2] => [s0 * 4 + s1 / 16, s1 % 16 * 16 + s2 / 4]
  | _ => []

/-- Standard base64 of a byte list, `=`-padded to a multiple of four
characters (the output of `Buffer.toString('base64')` and of `btoa`). -/
def base64Std (bytes : List Nat) : Str :=
  let body := (bytesToSextets bytes).map sextetChar
  body ++ List.replicate ((4 - body.length % 4) % 4) '='

/-- The `+→-`, `/→_` substitution of `encodeUrlSafeBase64`. -/
def toUrlSafeChar (c : Char) : Char :=
  if c = '+' then '-' else if c = '/' then '_' else c

/-- The `-→+`, `_→/` re-substitution of `decodeUrlSafeBase64`. -/
def fromUrlSafeChar (c : Char) : Char :=
  if c = '-' then '+' else if c = '_' then '/' else c

/-- `encodeUrlSafeBase64` (src/blob.ts:7-29): standard base64 of the UTF-8
bytes, then `+→-`, `/→_`, and every `=` removed. -/
def encodeUrlSafeBase64 (json : Str) : Str :=
  ((base64Std (utf8Encode json)).map toUrlSafeChar).filter (· ≠ '=')

/-- The re-substitution step of `decodeUrlSafeBase64`: `-→+`, `_→/`. -/
def unSubstitute (s : Str) : Str := s.map fromUrlSafeChar

/-- The re-padding step of `decodeUrlSafeBase64`: append `=` until the
length is a multiple of four. -/
def padBase64 (s : Str) : Str := s ++ List.replicate ((4 - s.length % 4) % 4) '='

/-- The Node base64 decoder (`Buffer.from(str, 'base64')`): reads up to the
first `=`, skips characters outside the alphabet, and turns the surviving
six-bit groups into bytes; it never fails. -/
def nodeBase64Bytes (s : Str) : List Nat :=
  sextetsToBytes ((s.takeWhile (· ≠ '=')).filterMap charSextet)

/-- The padding strip of the browser base64 decoder (`atob`, WHATWG
forgiving-base64): remove up to two trailing `=` when the length is a
multiple of four. -/
def stripBase64Pad (s : Str) : Str :=
  if s.length % 4 = 0 then
    if s.reverse.take 2 = ['=', '='] then (s.reverse.drop 2).reverse
    else if s.reverse.take 1 = ['='] then (s.reverse.drop 1).reverse
    else s
  else s

/-- The padding-stripping and validation core of `atobBytes`. -/
def atobChecked (body : Str) : Option (List Nat) :=
  if body.length % 4 = 1 then none
  else if body.all fun c => (charSextet c).isSome then
    some (sextetsToBytes (body.filterMap charSextet))
  else none

/-- The browser base64 decoder (`atob`): strip padding, then fail unless
every remaining character is in the alphabet and the remaining length is
not `≡ 1 (mod 4)`; otherwise produce the bytes of the six-bit groups. -/
def atobBytes (s : Str) : Option (List Nat) :=
  atobChecked (stripBase64Pad s)

/-- `decodeUrlSafeBase64` (src/blob.ts:37-68): re-substitute, re-pad, then
base64-decode and UTF-8-decode with the host facility.  Only the browser
branch can fail; its `atob` exception is caught and re-thrown as
`Invalid base64 input`. -/
def decodeUrlSafeBase64 (env : HostEnv) (s : Str) : Except Str Str :=
  let padded := padBase64 (unSubstitute s)
  match env with
  | .node => .ok (utf8Decode (nodeBase64Bytes padded))
  | .browser =>
      match atobBytes padded with
      | some bytes => .ok (utf8Decode bytes)
      | none => .error "Invalid base64 input".toList

/-- `createHydrationBlob` (src/blob.ts:85-91): `JSON.stringify`, then
URL-safe base64. -/
def createHydrationBlob (data : Json) : Str :=
  encodeUrlSafeBase64 (jsonStringify data)

/-- A JS value arriving where a string is expected: the runtime type check
in `decodeHydrationBlob` distinguishes only string from non-string. -/
inductive JsVal where
  | str (s : Str)
  | nonString
deriving DecidableEq

/-- `decodeHydrationBlob` (src/blob.ts:104-122): reject non-strings, then
URL-safe-base64-decode and `JSON.parse`.  A `JSON.parse` failure is a
`SyntaxError` and surfaces as `Invalid JSON in decoded blob`; any other
failure (the browser decoder's throw) surfaces as
`Failed to decode blob: <message>`. -/
def decodeHydrationBlob (env : HostEnv) (blob : JsVal) : Except Str Json :=
  match blob with
  | .nonString => .error "Input must be a string".toList
  | .str s =>
      match decodeUrlSafeBase64 env s with
      | .error m => .error ("Failed to decode blob: ".toList ++ m)
      | .ok jsonString =>
          match jsonParse jsonString with
          | some data => .ok data
          | none => .error "Invalid JSON in decoded blob".toList

/-! ## JS object helpers

`hydrateFromEncodedBlob` applies the JS `in` operator, property access,
`Object.keys` and `Object.entries` to the decoded payload, which at runtime
can be any JSON value.  These model the host semantics on the value model:
arrays expose their indices (and `length`), strings are primitives (`in`
throws a `TypeError` on them), other primitives likewise.  On objects, a
duplicate key cannot occur in a real JS object; the association-list model
uses the first match. -/

/-- The JS `in` operator, `key in j`: property membership on objects and
arrays, a thrown `TypeError` on primitives. -/
def jsHasProp (key : Str) : Json → Except Str Bool
  | .obj ms => .ok (ms.any fun kv => kv.1 = key)
  | .arr xs =>
      .ok ((List.range xs.length).any (fun i => natDec i = key) || key = "length".toList)
  | _ => .error "Cannot use in operator to search for property in primitive".toList

/-- JS property access `j[key]` (used only after `jsHasProp` succeeded). -/
def jsGetProp (key : Str) : Json → Json
  | .obj ms =>
      match ms.find? (fun kv => kv.1 = key) with
      | some kv => kv.2
      | none => .null
  | .arr xs =>
      if key = "length".toList then .num xs.length
      else
        match (List.range xs.length).find? (fun i => natDec i = key) with
        | some i => xs.getD i .null
        | none => .null
  | _ => .null

/-- `Object.keys`: own enumerable keys — member keys of an object, index
strings of an array or a string, nothing on other primitives. -/
def jsKeys : Json → List Str
  | .obj ms => ms.map Prod.fst
  | .arr xs => (List.range xs.length).map natDec
  | .str s => (List.range s.length).map natDec
  | _ => []

/-- `Object.entries`: the key-value pairs matching `jsKeys`. -/
def jsEntries : Json → List (Str × Json)
  | .obj ms => ms
  | .arr xs => xs.enum.map fun p => (natDec p.1, p.2)
  | .str s => s.enum.map fun p => (natDec p.1, .str [p.2])
  | _ => []

/-! ## The registry, the store, and the hydrator (`src/hydrate.ts`)

A schema is its `safeParse` behaviour plus the optional field-name
introspection the code performs on `schema._def.shape` (present exactly for
`ZodObject` schemas).  An atom is an opaque handle, modelled as a `Nat` id;
the store maps ids to values and says which `set` calls throw (for the
hydrator) and how a `get` behaves (for the barrier). -/

/-- One field-level validation issue (`path` + `message`), as zod reports. -/
structure ValIssue where
  path : List Str
  message : Str
deriving DecidableEq

/-- The outcome of `schema.safeParse`. -/
inductive SafeParseResult where
  | ok (data : Json)
  | fail (issues : List ValIssue)
deriving DecidableEq

/-- A validator: `safeParse` plus optional field-name introspection
(`some` of the declared keys when the schema is a `ZodObject` with
`_def.shape`, `none` for opaque validators). -/
structure Schema where
  safeParse : Json → SafeParseResult
  shape : Option (List Str)

/-- One registry section (`HydrationRegistryEntry`): schema, field-to-atom
map, and the `persisted` field names (`persisted || []`: the absent case is
the empty list). -/
structure RegistryEntry where
  schema : Schema
  atoms : List (Str × Nat)
  persisted : List Str

/-- A hydration registry: section name to entry, in object insertion order. -/
abbrev Registry := List (Str × RegistryEntry)

/-- How reading an atom behaves for the readiness barrier: a plain value, a
returned promise, a thrown promise (suspense), or a thrown non-promise
error.  Promise identities are `Nat`s resolved by the scheduler oracle. -/
inductive ReadOutcome where
  | value
  | futureValue (fid : Nat)
  | futureRaise (fid : Nat)
  | raise (msg : Str)

/-- The Jotai store as the engine uses it: current cell values, which `set`
calls throw (and with what message), and how `get` behaves per atom. -/
structure Store where
  cells : Nat → Json
  setFail : Nat → Option Str
  readOutcome : Nat → ReadOutcome

/-- `store.set(atom, value)`: throws when the cell write fails, otherwise
updates the cell.  `setFail` and `readOutcome` are never changed. -/
def Store.set (st : Store) (a : Nat) (v : Json) : Except Str Store :=
  match st.setFail a with
  | some m => .error m
  | none => .ok { st with cells := fun x => if x = a then v else st.cells x }

/-- Per-section result (`HydrationSectionResult`); `none` fields are JS
`undefined` (absent). -/
structure SectionResult where
  success : Bool
  error : Option Str := none
  warnings : Option (List Str) := none
  appliedFields : Option (List Str) := none
deriving DecidableEq

/-- Whole-call result (`HydrationResult`), section results in processing
order. -/
structure HydrationResult where
  sections : List (Str × SectionResult)
  overallSuccess : Bool
deriving DecidableEq

/-- One issue as the validation error renders it:
`<dotted.path>: <message>`, the path prefix omitted when the path is empty. -/
def issueText (i : ValIssue) : Str :=
  (if i.path.isEmpty then [] else List.intercalate ['.'] i.path ++ ": ".toList) ++ i.message

/-- The validation failure message: every issue, joined by `, `. -/
def validationMessage (issues : List ValIssue) : Str :=
  List.intercalate ", ".toList (issues.map issueText)

/-- ASCII lowering of one character (`String.prototype.toLowerCase`,
restricted to ASCII). -/
def charLowerAscii (c : Char) : Char :=
  if 65 ≤ c.toNat && c.toNat ≤ 90 then Char.ofNat (c.toNat + 32) else c

/-- ASCII lowering of a string. -/
def strLowerAscii (s : Str) : Str := s.map charLowerAscii

/-- String prefix test. -/
def strStartsWith : Str → Str → Bool
  | _, [] => true
  | [], _ :: _ => false
  | c :: cs, d :: ds => c = d && strStartsWith cs ds

/-- `String.prototype.includes`: substring containment. -/
def strContains : Str → Str → Bool
  | [], needle => strStartsWith [] needle
  | c :: t, needle => strStartsWith (c :: t) needle || strContains t needle

/-- The name-relation part of the object-storing-pattern heuristic
(src/hydrate.ts:147-150): the single atom's name equals the section name,
equals it case-insensitively, or contains / is contained in it. -/
def atomMatchesSection (atomName sectionName : Str) : Bool :=
  atomName = sectionName
    || strLowerAscii atomName = strLowerAscii sectionName
    || strContains sectionName atomName
    || strContains atomName sectionName

/-- The object-storing-pattern detection (src/hydrate.ts:137-157): exactly
one atom, more than one schema key, the atom in `persisted` or `persisted`
empty, and the atom name related to the section name or in `persisted`. -/
def isObjectStoring (sectionName : Str) (entry : RegistryEntry) (schemaKeys : List Str) : Bool :=
  match entry.atoms with
  | [(aname, _)] =>
      decide (schemaKeys.length > 1)
        && (entry.persisted.isEmpty || decide (aname ∈ entry.persisted))
        && (atomMatchesSection aname sectionName || decide (aname ∈ entry.persisted))
  | _ => false

/-- The flat apply loop (src/hydrate.ts:210-244): for each entry of the
validated data, look up the field's atom; without one, warn in non-strict
mode and continue; with one, write the value, recording the field in
`appliedFields`; a throwing write fails the section with
`Failed to set atom for field <field>: <message>` and stops the loop.
(The `value === undefined` skip has no model counterpart: the value model
has no `undefined`.) -/
def applyFlat (strict : Bool) (atoms : List (Str × Nat)) :
    List (Str × Json) → Store → SectionResult → Store × SectionResult
  | [], st, res => (st, res)
  | (fieldName, v) :: rest, st, res =>
      match atoms.find? (fun p => p.1 = fieldName) with
      | none =>
          if strict then applyFlat strict atoms rest st res
          else
            applyFlat strict atoms rest st
              { res with
                warnings :=
                  some ((res.warnings.getD []) ++ ["No atom found for field: ".toList ++ fieldName]) }
      | some (_, atomId) =>
          match st.set atomId v with
          | .ok st2 =>
              applyFlat strict atoms rest st2
                { res with appliedFields := res.appliedFields.map (· ++ [fieldName]) }
          | .error m =>
              (st,
                { res with
                  success := false,
                  error :=
                    some ("Failed to set atom for field ".toList ++ fieldName
                      ++ ": ".toList ++ m) })

/-- A fresh section result (src/hydrate.ts:87-90): success with an empty
`appliedFields` list. -/
def initSectionResult : SectionResult := { success := true, appliedFields := some [] }

/-- The schema key list used by the consistency check
(src/hydrate.ts:117-130): the `ZodObject` shape when the schema exposes one,
else — the logged fallback — the validated data's own keys. -/
def schemaKeysOf (entry : RegistryEntry) (data : Json) : List Str :=
  match entry.schema.shape with
  | some ks => ks
  | none => jsKeys data

/-- Steps 3-6 of `hydrateFromEncodedBlob` for one section present in the
payload: validate, derive the schema keys (`_def.shape` when available,
else the validated data's own keys), detect the object-storing pattern,
run the strict consistency checks (skipped for the pattern), then apply —
the whole object into the single atom for the pattern, else field by field. -/
def processSection (strict : Bool) (sectionName : Str) (entry : RegistryEntry)
    (sectionData : Json) (st : Store) : Store × SectionResult :=
  let res0 : SectionResult := initSectionResult
  match entry.schema.safeParse sectionData with
  | .fail issues =>
      (st, { res0 with success := false, error := some (validationMessage issues) })
  | .ok data =>
      let atomKeys := entry.atoms.map Prod.fst
      let schemaKeys := schemaKeysOf entry data
      let pattern := isObjectStoring sectionName entry schemaKeys
      let missing := schemaKeys.filter fun k => decide (k ∉ atomKeys)
      let extra := atomKeys.filter fun k => decide (k ∉ schemaKeys)
      if strict && !pattern && !missing.isEmpty then
        (st,
          { res0 with
            success := false,
            error :=
              some ("Schema fields missing atom: ".toList
                ++ List.intercalate ", ".toList missing) })
      else if strict && !pattern && !extra.isEmpty then
        (st,
          { res0 with
            success := false,
            error :=
              some ("Extra atoms not in schema: ".toList
                ++ List.intercalate ", ".toList extra) })
      else if pattern then
        match entry.atoms with
        | (aname, atomId) :: _ =>
            match st.set atomId data with
            | .ok st2 => (st2, { res0 with appliedFields := res0.appliedFields.map (· ++ [aname]) })
            | .error m =>
                (st,
                  { res0 with
                    success := false,
                    error :=
                      some ("Failed to set object-storing atom ".toList ++ aname
                        ++ ": ".toList ++ m) })
        | [] => (st, res0)
      else applyFlat strict entry.atoms (jsEntries data) st res0

/-- The section loop (src/hydrate.ts:77-248): registry entries in order,
skipping sections absent from the decoded payload (`sectionName in
decodedData`, whose `TypeError` on a primitive payload propagates), each
processed section appending its result and AND-ing `overallSuccess`. -/
def hydrateSections (strict : Bool) (decoded : Json) :
    Registry → Store → HydrationResult → Except Str (Store × HydrationResult)
  | [], st, acc => .ok (st, acc)
  | (n, entry) :: rest, st, acc =>
      match jsHasProp n decoded with
      | .error m => .error m
      | .ok false => hydrateSections strict decoded rest st acc
      | .ok true =>
          let (st2, res) := processSection strict n entry (jsGetProp n decoded) st
          hydrateSections strict decoded rest st2
            { sections := acc.sections ++ [(n, res)],
              overallSuccess := acc.overallSuccess && res.success }

/-- The per-section failure entries built when decoding the blob throws
(src/hydrate.ts:65-71): every registry section, each failed with the wrapped
decode message. -/
def decodeFailSections (registry : Registry) (m : Str) : List (Str × SectionResult) :=
  registry.map fun p =>
    (p.1,
      { success := false,
        error := some ("Failed to decode blob: ".toList ++ m) })

/-- `hydrateFromEncodedBlob` (src/hydrate.ts:35-252): decode the blob —
a decode failure marks every registry section failed with
`Failed to decode blob: <message>` and returns without touching the store —
then run the section loop.  `strict` defaults to `true`
(`options?.strict !== false`). -/
def hydrateFromEncodedBlob (env : HostEnv) (blob : JsVal) (registry : Registry)
    (strictOpt : Option Bool) (st : Store) : Except Str (HydrationResult × Store) :=
  let strict := strictOpt != some false
  match decodeHydrationBlob env blob with
  | .error m =>
      .ok ({ sections := decodeFailSections registry m, overallSuccess := false }, st)
  | .ok decoded =>
      match hydrateSections strict decoded registry st ⟨[], true⟩ with
      | .error m => .error m
      | .ok (st2, res) => .ok (res, st2)

/-! ## The readiness barrier (`src/wait.ts`)

`waitForPersistedAtomsFromRegistry` collects the unique persisted atoms,
reads each one, gathers the promises among the read results, and races
their combined settlement against a timeout.  Settlement and the race
winner are supplied by a scheduler oracle (`Sched`): `settle` says how each
promise eventually settles, `timeoutFirst` says whether the timeout fires
before all of them have.  The run records whether the timeout timer was
started and whether it was cleared, so timer hygiene is statable. -/

/-- How a promise eventually settles.  A rejection reason is its rendered
message; JS truthiness of the reason (an `Error` is always truthy) is
modelled as nonemptiness. -/
inductive SettleResult where
  | fulfilled
  | rejected (reason : Str)

/-- The scheduler oracle for one barrier run. -/
structure Sched where
  settle : Nat → SettleResult
  timeoutFirst : Bool

/-- What a barrier run did: its outcome, whether the timeout timer was ever
started / cleared, and the store as the barrier leaves it. -/
structure BarrierRun where
  outcome : Except Str Unit
  timerStarted : Bool
  timerCleared : Bool
  store : Store

/-- Insert into a JS `Set`-like list: keep insertion order, drop an element
already present. -/
def insertUnique (xs : List Nat) (a : Nat) : List Nat :=
  if a ∈ xs then xs else xs ++ [a]

/-- The atoms one section contributes: its `persisted` names resolved
through its `atoms` map, names without an atom silently skipped
(src/wait.ts:45-50). -/
def persistedAtomsOf (entry : RegistryEntry) : List Nat :=
  entry.persisted.filterMap fun k => (entry.atoms.find? fun p => p.1 = k).map Prod.snd

/-- The `Set` of persisted atoms across the registry, in encounter order. -/
def persistedAtomSet (registry : Registry) : List Nat :=
  registry.foldl (fun acc p => (persistedAtomsOf p.2).foldl insertUnique acc) []

/-- The read loop (src/wait.ts:62-87): gather the promise of every atom
whose read returns or raises one; a read that throws a non-promise error
re-throws out of the whole function. -/
def collectPromises (st : Store) : List Nat → Except Str (List Nat)
  | [] => .ok []
  | a :: rest =>
      match st.readOutcome a with
      | .value => collectPromises st rest
      | .futureValue f => (collectPromises st rest).map (f :: ·)
      | .futureRaise f => (collectPromises st rest).map (f :: ·)
      | .raise m => .error m

/-- The timeout rejection message (src/wait.ts:98). -/
def timeoutMessage (t : Nat) : Str :=
  "Timeout waiting for persisted atoms to load after ".toList ++ natDec t ++ "ms".toList

/-- Whether a settlement is a rejection. -/
def SettleResult.isRejected : SettleResult → Bool
  | .rejected _ => true
  | .fulfilled => false

/-- `waitForPersistedAtomsFromRegistry` (src/wait.ts:32-138).  `timeoutMs`
defaults to `3000`.  No promises pending means an immediate resolve with no
timer.  Otherwise the timer starts and — win or lose — is cleared in the
`finally` block.  If the timeout wins the race the run rejects with
`timeoutMessage`; otherwise the first promise found rejected (in checked
order) rejects the run with `Failed to load persisted atom: <reason>`,
unless its reason is falsy (the `firstError?.reason` guard).  The store is
returned untouched: the function has no `set` call. -/
def waitForPersistedAtomsFromRegistry (registry : Registry) (timeoutMs : Option Nat)
    (st : Store) (sched : Sched) : BarrierRun :=
  let t := timeoutMs.getD 3000
  let atoms := persistedAtomSet registry
  if atoms.isEmpty then ⟨.ok (), false, false, st⟩
  else
    match collectPromises st atoms with
    | .error m => ⟨.error m, false, false, st⟩
    | .ok fs =>
        if fs.isEmpty then ⟨.ok (), false, false, st⟩
        else
          let outcome : Except Str Unit :=
            if sched.timeoutFirst then .error (timeoutMessage t)
            else
              match fs.find? fun f => (sched.settle f).isRejected with
              | some f =>
                  match sched.settle f with
                  | .rejected reason =>
                      if reason.isEmpty then .ok ()
                      else .error ("Failed to load persisted atom: ".toList ++ reason)
                  | .fulfilled => .ok ()
              | none => .ok ()
          ⟨outcome, true, true, st⟩

/-! ## The bootstrap orchestrator (`src/bootstrap.ts`) -/

/-- Wrap to a signed 32-bit integer (the JS `| 0` / `x & x` coercion). -/
def toInt32 (n : Int) : Int := (n + 2 ^ 31) % 2 ^ 32 - 2 ^ 31

/-- One step of `hashBlob`'s loop: `hash = ((hash << 5) - hash) + char`
(the shift wraps to 32 bits) followed by `hash = hash & hash` (wrap again).
Character codes are UTF-16 units; tokens are ASCII, where the scalar value
coincides. -/
def hashStep (h : Int) (c : Char) : Int := toInt32 (toInt32 (h * 32) - h + c.toNat)

/-- Digit character for base 36 (`0-9a-z`, as `Number.toString(36)`). -/
def base36Char (d : Nat) : Char :=
  if d < 10 then Char.ofNat (48 + d) else Char.ofNat (87 + d)

/-- Base-36 digits of `n`, most significant first, with recursion fuel. -/
def natBase36With : Nat → Nat → Str
  | 0, _ => []
  | fuel + 1, n =>
      if n < 36 then [base36Char n]
      else natBase36With fuel (n / 36) ++ [base36Char (n % 36)]

/-- `n.toString(36)`. -/
def natBase36 (n : Nat) : Str := natBase36With (n + 1) n

/-- `hashBlob` (src/bootstrap.ts:9-17): the 32-bit string hash, absolute
value, rendered base 36. -/
def hashBlob (blob : Str) : Str := natBase36 (blob.foldl hashStep 0).natAbs

/-- The replay-guard storage key derived for a token
(src/bootstrap.ts:93,114). -/
def storageKeyFor (blob : Str) : Str := "__hydration_".toList ++ hashBlob blob

/-- `bootstrapHydration`'s options: the explicit token, `strict` and
`timeoutMs` passed through to the hydrator and the barrier. -/
structure BootstrapOptions where
  blob : Option Str := none
  strict : Option Bool := none
  timeoutMs : Option Nat := none

/-- The page-global state `bootstrapHydration` touches: the store, the
origin's `localStorage` (the replay guard), the `window.__HYDRATION_BLOBS__`
queue of `{blob, storageKey}` pairs, the `hydrate` URL query parameter, and
the published `window.__HYDRATION_RESULT__`. -/
structure World where
  store : Store
  localStorage : List (Str × Str)
  windowBlobs : List (Str × Str)
  urlHydrate : Option Str
  published : Option HydrationResult

/-- `localStorage.getItem` (first match; real keys are unique). -/
def lsGet (ls : List (Str × Str)) (k : Str) : Option Str :=
  (ls.find? fun p => p.1 = k).map Prod.snd

/-- `localStorage.setItem`. -/
def lsSet (ls : List (Str × Str)) (k v : Str) : List (Str × Str) :=
  if (ls.find? fun p => p.1 = k).isSome then
    ls.map fun p => if p.1 = k then (k, v) else p
  else ls ++ [(k, v)]

/-- JS truthiness of `getItem`'s result: present and nonempty. -/
def jsTruthyStr : Option Str → Bool
  | some s => !s.isEmpty
  | none => false

/-- Blob discovery (src/bootstrap.ts:88-126): the explicit option wins;
else the `window.__HYDRATION_BLOBS__` queue, consumed and cleared; else the
`hydrate` query parameter.  Explicit and URL tokens get a derived storage
key; queue entries carry their own. -/
def discoverBlobs (opts : BootstrapOptions) (w : World) : List (Str × Str) × World :=
  match opts.blob with
  | some b => ([(b, storageKeyFor b)], w)
  | none =>
      if !w.windowBlobs.isEmpty then (w.windowBlobs, { w with windowBlobs := [] })
      else
        match w.urlHydrate with
        | some b => ([(b, storageKeyFor b)], w)
        | none => ([], w)

/-- `Object.assign(base, upd)` on section maps: existing keys overwritten
in place, new keys appended in `upd` order. -/
def assocMerge (base upd : List (Str × SectionResult)) : List (Str × SectionResult) :=
  (base.map fun p =>
      match upd.find? fun q => q.1 = p.1 with
      | some q => q
      | none => p)
    ++ upd.filter fun q => !(base.any fun p => p.1 = q.1)

/-- The hydrate loop (src/bootstrap.ts:143-180): skip a token whose storage
key is already truthy in `localStorage`; otherwise hydrate it, merge its
sections over the aggregate, AND `overallSuccess`, and on a successful
result mark the storage key `true`.  A hydrate throw carries the world as
mutated so far out to the catch. -/
def bootstrapLoop (env : HostEnv) (registry : Registry) (strictOpt : Option Bool) :
    List (Str × Str) → World → HydrationResult → Except (Str × World) (HydrationResult × World)
  | [], w, agg => .ok (agg, w)
  | (blob, storageKey) :: rest, w, agg =>
      if jsTruthyStr (lsGet w.localStorage storageKey) then
        bootstrapLoop env registry strictOpt rest w agg
      else
        match hydrateFromEncodedBlob env (.str blob) registry strictOpt w.store with
        | .error m => .error (m, w)
        | .ok (res, st2) =>
            let agg2 : HydrationResult :=
              { sections := assocMerge agg.sections res.sections,
                overallSuccess := agg.overallSuccess && res.overallSuccess }
            let w2 := { w with store := st2 }
            let w3 :=
              if res.overallSuccess then
                { w2 with localStorage := lsSet w2.localStorage storageKey "true".toList }
              else w2
            bootstrapLoop env registry strictOpt rest w3 agg2

/-- The catch block (src/bootstrap.ts:191-216): publish a synthetic result
marking every registry section `Bootstrap failed: <message>`, then
re-throw. -/
def bootstrapCatch (registry : Registry) (m : Str) (w : World) :
    Except (Str × World) (Option HydrationResult × World) :=
  let failed : List (Str × SectionResult) :=
    registry.map fun p =>
      (p.1,
        { success := false,
          error := some ("Bootstrap failed: ".toList ++ m) })
  .error (m, { w with published := some ⟨failed, false⟩ })

/-- `bootstrapHydration` (src/bootstrap.ts:74-217): discover — none found
means return `undefined` with nothing published — then barrier, then the
hydrate loop, then publish the aggregate.  A barrier or loop throw goes
through the catch block. -/
def bootstrapHydration (env : HostEnv) (registry : Registry) (opts : BootstrapOptions)
    (w : World) (sched : Sched) : Except (Str × World) (Option HydrationResult × World) :=
  let (blobs, w1) := discoverBlobs opts w
  if blobs.isEmpty then .ok (none, w1)
  else
    let run := waitForPersistedAtomsFromRegistry registry opts.timeoutMs w1.store sched
    let w2 := { w1 with store := run.store }
    match run.outcome with
    | .error m => bootstrapCatch registry m w2
    | .ok _ =>
        match bootstrapLoop env registry opts.strict blobs w2 ⟨[], true⟩ with
        | .error (m, w3) => bootstrapCatch registry m w3
        | .ok (agg, w3) => .ok (some agg, { w3 with published := some agg })

/-! ## Hydrator lemmas

The hydrator threads the store through the section loop, but a section's
`SectionResult` depends only on the section's own data and on which `set`
calls throw (`setFail`), never on current cell values or on what earlier
sections wrote.  The lemmas below make that precise and give the section
loop a closed form over object payloads. -/

theorem Store.set_ok_fields {st : Store} {a : Nat} {v : Json} {st2 : Store}
    (h : st.set a v = .ok st2) :
    st2.setFail = st.setFail ∧ st2.readOutcome = st.readOutcome := by
  unfold Store.set at h
  cases hf : st.setFail a with
  | some m => rw [hf] at h; cases h
  | none => rw [hf] at h; cases h; exact ⟨rfl, rfl⟩

theorem applyFlat_setFail (strict : Bool) (atoms : List (Str × Nat)) :
    ∀ (entries : List (Str × Json)) (st : Store) (res : SectionResult),
      (applyFlat strict atoms entries st res).1.setFail = st.setFail ∧
        (applyFlat strict atoms entries st res).1.readOutcome = st.readOutcome := by
  intro entries
  induction entries with
  | nil => intro st res; exact ⟨rfl, rfl⟩
  | cons e rest ih =>
      intro st res
      obtain ⟨fieldName, v⟩ := e
      rw [applyFlat]
      split
      · split
        · exact ih _ _
        · exact ih _ _
      · split
        · rename_i st2 hset
          obtain ⟨h1, h2⟩ := Store.set_ok_fields hset
          obtain ⟨h3, h4⟩ := ih st2 _
          exact ⟨h3.trans h1, h4.trans h2⟩
        · exact ⟨rfl, rfl⟩

theorem applyFlat_result_congr (strict : Bool) (atoms : List (Str × Nat)) :
    ∀ (entries : List (Str × Json)) (st st' : Store) (res : SectionResult),
      st.setFail = st'.setFail →
      (applyFlat strict atoms entries st res).2 = (applyFlat strict atoms entries st' res).2 := by
  intro entries
  induction entries with
  | nil => intro st st' res _; rfl
  | cons e rest ih =>
      intro st st' res hsf
      obtain ⟨fieldName, v⟩ := e
      rw [applyFlat, applyFlat]
      cases hfind : atoms.find? fun p => p.1 = fieldName with
      | none =>
          simp only [hfind]
          split
          · exact ih st st' res hsf
          · exact ih st st' _ hsf
      | some p =>
          obtain ⟨s, atomId⟩ := p
          simp only [hfind]
          unfold Store.set
          rw [hsf]
          cases hf : st'.setFail atomId with
          | some m => simp only [hf]
          | none =>
              simp only [hf]
              exact ih _ _ _ rfl

theorem processSection_setFail (strict : Bool) (n : Str) (e : RegistryEntry) (d : Json)
    (st : Store) :
    (processSection strict n e d st).1.setFail = st.setFail ∧
      (processSection strict n e d st).1.readOutcome = st.readOutcome := by
  rw [processSection]
  split
  · exact ⟨rfl, rfl⟩
  · simp only []
    split
    · exact ⟨rfl, rfl⟩
    · split
      · exact ⟨rfl, rfl⟩
      · split
        · split
          · split
            · rename_i st2 hset
              exact Store.set_ok_fields hset
            · exact ⟨rfl, rfl⟩
          · exact ⟨rfl, rfl⟩
        · exact applyFlat_setFail _ _ _ _ _

theorem processSection_result_congr (strict : Bool) (n : Str) (e : RegistryEntry) (d : Json)
    (st st' : Store) (hsf : st.setFail = st'.setFail) :
    (processSection strict n e d st).2 = (processSection strict n e d st').2 := by
  rw [processSection, processSection]
  cases hval : e.schema.safeParse d with
  | fail issues => simp only [hval]
  | ok data =>
      simp only [hval]
      split
      · rfl
      · split
        · rfl
        · split
          · split
            · unfold Store.set
              rw [hsf]
              cases hf : st'.setFail _ with
              | some m => simp only [hf]
              | none => simp only [hf]
            · rfl
          · exact applyFlat_result_congr _ _ _ _ _ _ hsf

/-- A fixed store carrying only a `setFail` map, for stating that a
section's result depends on nothing else of the store. -/
def storeOfSetFail (sf : Nat → Option Str) : Store :=
  { cells := fun _ => .null, setFail := sf, readOutcome := fun _ => .value }

/-- The result a section would produce processed on its own: a function of
the section's own data, the entry, strict mode, and which writes throw. -/
def sectionResultPure (strict : Bool) (n : Str) (e : RegistryEntry) (d : Json)
    (sf : Nat → Option Str) : SectionResult :=
  (processSection strict n e d (storeOfSetFail sf)).2

/-- The section results of hydrating an object payload, in registry order:
an entry for exactly the registry sections whose name is a payload key,
each the pure per-section result. -/
def processedResults (strict : Bool) (ms : List (Str × Json)) (sf : Nat → Option Str) :
    Registry → List (Str × SectionResult)
  | [] => []
  | (n, e) :: rest =>
      if ms.any fun kv => kv.1 = n then
        (n, sectionResultPure strict n e (jsGetProp n (.obj ms)) sf)
          :: processedResults strict ms sf rest
      else processedResults strict ms sf rest

theorem hydrateSections_obj_spec (strict : Bool) (ms : List (Str × Json)) :
    ∀ (registry : Registry) (st : Store) (acc : HydrationResult),
      ∃ st2 : Store,
        hydrateSections strict (.obj ms) registry st acc =
          .ok (st2,
            { sections := acc.sections ++ processedResults strict ms st.setFail registry,
              overallSuccess :=
                (acc.overallSuccess
                  && (processedResults strict ms st.setFail registry).all fun p => p.2.success) }) ∧
          st2.setFail = st.setFail := by
  intro registry
  induction registry with
  | nil =>
      intro st acc
      refine ⟨st, ?_, rfl⟩
      simp [hydrateSections, processedResults]
  | cons p rest ih =>
      intro st acc
      obtain ⟨n, e⟩ := p
      rw [hydrateSections, processedResults]
      simp only [jsHasProp]
      cases hmem : ms.any fun kv => kv.1 = n with
      | false =>
          simp only [Bool.false_eq_true, if_false]
          exact ih st acc
      | true =>
          simp only [if_true]
          obtain ⟨stm, hrun, hsfm⟩ :=
            ih (processSection strict n e (jsGetProp n (.obj ms)) st).1
              { sections :=
                  acc.sections ++ [(n, (processSection strict n e (jsGetProp n (.obj ms)) st).2)],
                overallSuccess :=
                  (acc.overallSuccess
                    && (processSection strict n e (jsGetProp n (.obj ms)) st).2.success) }
          have hpf : (processSection strict n e (jsGetProp n (.obj ms)) st).1.setFail = st.setFail :=
            (processSection_setFail _ _ _ _ _).1
          have hres : (processSection strict n e (jsGetProp n (.obj ms)) st).2 =
              sectionResultPure strict n e (jsGetProp n (.obj ms)) st.setFail :=
            processSection_result_congr _ _ _ _ _ _ rfl
          refine ⟨stm, ?_, hsfm.trans hpf⟩
          rw [hrun]
          simp [hpf, hres, Bool.and_assoc]

/-! ## Concrete fixtures

Schemas, registries, stores and payloads used by the concrete witness and
counterexample theorems.  Schemas are caller-supplied collaborators; these
model simple `z.object(...)` validators. -/

/-- Does the member list have key `k` with a value satisfying `p`? -/
def fieldSat (ms : List (Str × Json)) (k : Str) (p : Json → Bool) : Bool :=
  match ms.find? fun q => q.1 = k with
  | some q => p q.2
  | none => false

/-- String test. -/
def isStrVal : Json → Bool
  | .str _ => true
  | _ => false

/-- Number test. -/
def isNumVal : Json → Bool
  | .num _ => true
  | _ => false

/-- A model of `z.object({ name: z.string() })`. -/
def exNameSchema : Schema :=
  { safeParse := fun j =>
      match j with
      | .obj ms =>
          if fieldSat ms "name".toList isStrVal then .ok j
          else .fail [⟨["name".toList], "Required".toList⟩]
      | _ => .fail [⟨[], "Expected object, received number".toList⟩],
    shape := some ["name".toList] }

/-- A model of `z.object({ theme: z.string() })`. -/
def exThemeSchema : Schema :=
  { safeParse := fun j =>
      match j with
      | .obj ms =>
          if fieldSat ms "theme".toList isStrVal then .ok j
          else .fail [⟨["theme".toList], "Required".toList⟩]
      | _ => .fail [⟨[], "Expected object, received number".toList⟩],
    shape := some ["theme".toList] }

/-- A model of `z.object({ name: z.string(), age: z.number() })`. -/
def exUserSchema : Schema :=
  { safeParse := fun j =>
      match j with
      | .obj ms =>
          if fieldSat ms "name".toList isStrVal && fieldSat ms "age".toList isNumVal then .ok j
          else .fail [⟨[], "Invalid input".toList⟩]
      | _ => .fail [⟨[], "Expected object, received number".toList⟩],
    shape := some ["name".toList, "age".toList] }

/-- A store where every write succeeds. -/
def exStore : Store := storeOfSetFail fun _ => none

/-- A two-section registry: `user` and `settings`, one atom each. -/
def exRegistry : Registry :=
  [("user".toList,
    { schema := exNameSchema, atoms := [("name".toList, 0)], persisted := [] }),
   ("settings".toList,
    { schema := exThemeSchema, atoms := [("theme".toList, 1)], persisted := [] })]

/-- The payload `{user: {name: "A"}, settings: 5}`: `user` valid,
`settings` rejected by its schema. -/
def exMixedPayload : Json :=
  .obj [("user".toList, .obj [("name".toList, .str "A".toList)]),
        ("settings".toList, .num 5)]

/-! ## C3 and C5 -/

/-- C3 — for every payload object, the hydrator records, for exactly the
registry sections named by a payload key and in registry order, the pure
per-section result — a function of that section's own data, entry, strict
mode and throwing-write map alone, so no sibling section's validation,
consistency or write failure can affect it — and `overallSuccess` is the
AND of the recorded sections' `success` flags; registry sections absent
from the payload get no entry and do not affect `overallSuccess`. -/
theorem hydrate_isolates_sections_and_ands_success (env : HostEnv) (blob : JsVal)
    (registry : Registry) (strictOpt : Option Bool) (st : Store)
    (ms : List (Str × Json)) (hdec : decodeHydrationBlob env blob = .ok (.obj ms)) :
    ∃ st2 : Store,
      hydrateFromEncodedBlob env blob registry strictOpt st =
        .ok
          ({ sections := processedResults (strictOpt != some false) ms st.setFail registry,
             overallSuccess :=
               ((processedResults (strictOpt != some false) ms st.setFail registry).all
                 fun p => p.2.success) },
            st2) := by
  rw [hydrateFromEncodedBlob]
  obtain ⟨st2, hrun, _⟩ :=
    hydrateSections_obj_spec (strictOpt != some false) ms registry st ⟨[], true⟩
  refine ⟨st2, ?_⟩
  simp only [hdec, hrun]
  simp

/-- Witness for C3: the mixed payload against the two-section registry —
the hypothesis holds at this concrete token and the conclusion follows by
the theorem. -/
theorem hydrate_isolates_witness :
    decodeHydrationBlob .node (.str (createHydrationBlob exMixedPayload)) =
        .ok exMixedPayload ∧
      ∃ st2 : Store,
        hydrateFromEncodedBlob .node (.str (createHydrationBlob exMixedPayload)) exRegistry
            none exStore =
          .ok
            ({ sections :=
                processedResults true
                  [("user".toList, .obj [("name".toList, .str "A".toList)]),
                   ("settings".toList, .num 5)]
                  exStore.setFail exRegistry,
               overallSuccess :=
                 ((processedResults true
                    [("user".toList, .obj [("name".toList, .str "A".toList)]),
                     ("settings".toList, .num 5)]
                    exStore.setFail exRegistry).all
                   fun p => p.2.success) },
              st2) :=
  ⟨by decide,
   hydrate_isolates_sections_and_ands_success .node
     (.str (createHydrationBlob exMixedPayload)) exRegistry none exStore
     [("user".toList, .obj [("name".toList, .str "A".toList)]),
      ("settings".toList, .num 5)]
     (by decide)⟩

/-- C5 — a token that fails to decode makes `hydrateFromEncodedBlob` return
(not throw) a result failing every registry section — not only the payload
ones — with the decode error message wrapped as
`Failed to decode blob: <message>`, `overallSuccess` false, and the store
untouched. -/
theorem decode_failure_fails_every_section (env : HostEnv) (blob : JsVal)
    (registry : Registry) (strictOpt : Option Bool) (st : Store) (m : Str)
    (hdec : decodeHydrationBlob env blob = .error m) :
    hydrateFromEncodedBlob env blob registry strictOpt st =
      .ok ({ sections := decodeFailSections registry m, overallSuccess := false }, st) := by
  rw [hydrateFromEncodedBlob]
  simp only [hdec]

/-- Witness for C5: the non-base64 token `!!!!` (the model of
`Buffer.from` skips its characters, yielding the empty string, which is not
JSON) fails every section of the concrete registry. -/
theorem decode_failure_witness :
    decodeHydrationBlob .node (.str "!!!!".toList) =
        .error "Invalid JSON in decoded blob".toList ∧
      hydrateFromEncodedBlob .node (.str "!!!!".toList) exRegistry none exStore =
        .ok
          ({ sections := decodeFailSections exRegistry "Invalid JSON in decoded blob".toList,
             overallSuccess := false }, exStore) :=
  ⟨by decide,
   decode_failure_fails_every_section .node (.str "!!!!".toList) exRegistry none exStore
     "Invalid JSON in decoded blob".toList (by decide)⟩

/-! ## C4: the strict consistency check -/

/-- A registry entry routing the whole `user` object into one atom: a
single atom named like the section, a two-field schema. -/
def objectAtomEntry : RegistryEntry :=
  { schema := exUserSchema, atoms := [("user".toList, 5)], persisted := [] }

/-- The payload section value `{name: "A", age: 1}`. -/
def exUserData : Json :=
  .obj [("name".toList, .str "A".toList), ("age".toList, .num 1)]

/-- C4 counterexample — the claim fails as stated: for the section `user`
with schema fields `name`, `age` and the single atom `user` (no `persisted`
list), the data passes validation and the schema field `name` has no atom,
yet the section succeeds with the whole object written into atom `5` —
the object-storing heuristic skips the strict consistency check, where the
claim requires a failure with `Schema fields missing atom: name, age`
before any write. -/
theorem strict_consistency_counterexample :
    exUserSchema.safeParse exUserData = .ok exUserData ∧
      ("user".toList, 5) ∈ objectAtomEntry.atoms ∧
      schemaKeysOf objectAtomEntry exUserData = ["name".toList, "age".toList] ∧
      (objectAtomEntry.atoms.find? fun p => p.1 = "name".toList) = none ∧
      (processSection true "user".toList objectAtomEntry exUserData exStore).2 =
        { success := true, appliedFields := some ["user".toList] } ∧
      (processSection true "user".toList objectAtomEntry exUserData exStore).1.cells 5 =
        exUserData := by
  decide

/-- C4 (amended) — for every section processed in strict mode whose data
passed validation, **provided the object-storing heuristic does not
apply**: a schema field without an atom fails the section with
`Schema fields missing atom: <comma-joined>`, otherwise an atom key outside
the schema fields fails it with `Extra atoms not in schema:
<comma-joined>`, and in either case the store is returned untouched — the
section fails before any cell write. -/
theorem strict_mode_consistency_failure (n : Str) (e : RegistryEntry) (d : Json)
    (st : Store) (data : Json)
    (hval : e.schema.safeParse d = .ok data)
    (hpat : isObjectStoring n e (schemaKeysOf e data) = false) :
    ((schemaKeysOf e data).filter (fun k => decide (k ∉ e.atoms.map Prod.fst)) ≠ [] →
      processSection true n e d st =
        (st,
          { initSectionResult with
            success := false,
            error :=
              some ("Schema fields missing atom: ".toList
                ++ List.intercalate ", ".toList
                  ((schemaKeysOf e data).filter fun k => decide (k ∉ e.atoms.map Prod.fst))) })) ∧
    ((schemaKeysOf e data).filter (fun k => decide (k ∉ e.atoms.map Prod.fst)) = [] →
      (e.atoms.map Prod.fst).filter (fun k => decide (k ∉ schemaKeysOf e data)) ≠ [] →
      processSection true n e d st =
        (st,
          { initSectionResult with
            success := false,
            error :=
              some ("Extra atoms not in schema: ".toList
                ++ List.intercalate ", ".toList
                  ((e.atoms.map Prod.fst).filter fun k => decide (k ∉ schemaKeysOf e data))) })) := by
  constructor
  · intro hmiss
    have hne :
        ((schemaKeysOf e data).filter fun k => decide (k ∉ e.atoms.map Prod.fst)).isEmpty
          = false := by
      simpa [List.isEmpty_eq_false] using hmiss
    rw [processSection]
    simp only [hval, hpat, hne, Bool.not_false, Bool.true_and, Bool.and_true, if_true]
  · intro hmiss hextra
    have hm :
        ((schemaKeysOf e data).filter fun k => decide (k ∉ e.atoms.map Prod.fst)).isEmpty
          = true := by
      rw [hmiss]; rfl
    have hne :
        ((e.atoms.map Prod.fst).filter fun k => decide (k ∉ schemaKeysOf e data)).isEmpty
          = false := by
      simpa [List.isEmpty_eq_false] using hextra
    rw [processSection]
    simp only [hval, hpat, hm, hne, Bool.not_false, Bool.not_true, Bool.true_and,
      Bool.and_true, Bool.and_false, if_true, if_false, Bool.false_eq_true]

/-- Witness for the amended C4: schema fields `name`, `age` with only a
`name` atom, heuristic inapplicable (the atom name `name` is unrelated to
the section name `user`), so the section fails with
`Schema fields missing atom: age` and no write. -/
theorem strict_mode_consistency_witness :
    exUserSchema.safeParse exUserData = .ok exUserData ∧
      isObjectStoring "user".toList
          { schema := exUserSchema, atoms := [("name".toList, 0)], persisted := [] }
          (schemaKeysOf
            { schema := exUserSchema, atoms := [("name".toList, 0)], persisted := [] }
            exUserData) = false ∧
      processSection true "user".toList
          { schema := exUserSchema, atoms := [("name".toList, 0)], persisted := [] }
          exUserData exStore =
        (exStore,
          { initSectionResult with
            success := false,
            error := some "Schema fields missing atom: age".toList }) :=
  ⟨by decide, by decide, by
    have h :=
      (strict_mode_consistency_failure "user".toList
        { schema := exUserSchema, atoms := [("name".toList, 0)], persisted := [] }
        exUserData exStore exUserData (by decide) (by decide)).1 (by decide)
    rw [h]
    rfl⟩

/-! ## C6: a throwing cell write -/

theorem applyFlat_append (strict : Bool) (atoms : List (Str × Nat)) :
    ∀ (pre rest : List (Str × Json)) (st : Store) (res : SectionResult),
      res.success = true →
      applyFlat strict atoms (pre ++ rest) st res =
        (if (applyFlat strict atoms pre st res).2.success = true then
          applyFlat strict atoms rest (applyFlat strict atoms pre st res).1
            (applyFlat strict atoms pre st res).2
        else applyFlat strict atoms pre st res) := by
  intro pre
  induction pre with
  | nil =>
      intro rest st res hres
      simp [applyFlat, hres]
  | cons e pre' ih =>
      intro rest st res hres
      obtain ⟨fieldName, v⟩ := e
      rw [List.cons_append, applyFlat, applyFlat]
      cases hfind : atoms.find? fun p => p.1 = fieldName with
      | none =>
          simp only [hfind]
          split
          · exact ih rest st res hres
          · exact ih rest st _ hres
      | some p =>
          obtain ⟨s, aid⟩ := p
          simp only [hfind]
          cases hset : st.set aid v with
          | ok st2 =>
              simp only [hset]
              exact ih rest st2 _ hres
          | error m =>
              simp only [hset]
              simp

/-- If a payload section's pure result fails, the whole processed-results
list fails its AND. -/
theorem processedResults_member_false (strict : Bool) (ms : List (Str × Json))
    (sf : Nat → Option Str) (n : Str) (e : RegistryEntry)
    (hany : (ms.any fun kv => kv.1 = n) = true)
    (hfalse : (sectionResultPure strict n e (jsGetProp n (.obj ms)) sf).success = false) :
    ∀ registry : Registry, (n, e) ∈ registry →
      ((processedResults strict ms sf registry).all fun p => p.2.success) = false := by
  intro registry hmem
  induction registry with
  | nil => cases hmem
  | cons q rest ih =>
      obtain ⟨qn, qe⟩ := q
      rw [processedResults]
      rcases List.mem_cons.mp hmem with heq | htail
      · obtain ⟨h1, h2⟩ := Prod.mk.injEq .. ▸ heq
        subst h1
        subst h2
        rw [if_pos hany]
        simp [List.all_cons, hfalse]
      · split
        · rw [List.all_cons, ih htail, Bool.and_false]
        · exact ih htail

/-- C6 — when a section's data validated, the strict check passed and the
heuristic does not reroute it, and the flat apply loop reaches a field
whose atom write throws: the section result carries `success := false` and
`Failed to set atom for field <field>: <message>`, its `appliedFields` and
the store are exactly those after the fields before the failure (they stay
applied — no rollback), the fields after it are never processed, and any
full hydration whose payload carries this section ANDs to
`overallSuccess = false`. -/
theorem write_throw_stops_section (n : Str) (e : RegistryEntry) (d data : Json)
    (st : Store) (pre post : List (Str × Json)) (f : Str) (v : Json) (s : Str)
    (aid : Nat) (m : Str)
    (hval : e.schema.safeParse d = .ok data)
    (hpat : isObjectStoring n e (schemaKeysOf e data) = false)
    (hmiss : (schemaKeysOf e data).filter (fun k => decide (k ∉ e.atoms.map Prod.fst)) = [])
    (hextra : (e.atoms.map Prod.fst).filter (fun k => decide (k ∉ schemaKeysOf e data)) = [])
    (hentries : jsEntries data = pre ++ (f, v) :: post)
    (hpre : (applyFlat true e.atoms pre st initSectionResult).2.success = true)
    (hfind : (e.atoms.find? fun p => p.1 = f) = some (s, aid))
    (hfail : st.setFail aid = some m) :
    processSection true n e d st =
      ((applyFlat true e.atoms pre st initSectionResult).1,
        { (applyFlat true e.atoms pre st initSectionResult).2 with
          success := false,
          error :=
            some ("Failed to set atom for field ".toList ++ f ++ ": ".toList ++ m) }) ∧
      (∀ (registry : Registry) (ms : List (Str × Json)),
        (n, e) ∈ registry → (ms.any fun kv => kv.1 = n) = true →
        jsGetProp n (.obj ms) = d →
        ((processedResults true ms st.setFail registry).all fun p => p.2.success) = false) := by
  have hm :
      ((schemaKeysOf e data).filter fun k => decide (k ∉ e.atoms.map Prod.fst)).isEmpty
        = true := by
    rw [hmiss]; rfl
  have hx :
      ((e.atoms.map Prod.fst).filter fun k => decide (k ∉ schemaKeysOf e data)).isEmpty
        = true := by
    rw [hextra]; rfl
  have hmain : ∀ st' : Store, st'.setFail = st.setFail →
      processSection true n e d st' =
        ((applyFlat true e.atoms pre st' initSectionResult).1,
          { (applyFlat true e.atoms pre st' initSectionResult).2 with
            success := false,
            error :=
              some ("Failed to set atom for field ".toList ++ f ++ ": ".toList ++ m) }) := by
    intro st' hsf
    rw [processSection]
    simp only [hval, hpat, hm, hx, Bool.not_true, Bool.not_false, Bool.true_and,
      Bool.and_true, Bool.and_false, if_false, if_true, Bool.false_eq_true]
    rw [hentries, applyFlat_append true e.atoms pre ((f, v) :: post) st' initSectionResult rfl]
    have hpre' : (applyFlat true e.atoms pre st' initSectionResult).2.success = true := by
      rw [applyFlat_result_congr true e.atoms pre st' st initSectionResult hsf]
      exact hpre
    rw [if_pos hpre']
    rw [applyFlat]
    simp only [hfind]
    have hfail' :
        (applyFlat true e.atoms pre st' initSectionResult).1.setFail aid = some m := by
      rw [(applyFlat_setFail true e.atoms pre st' initSectionResult).1, hsf]
      exact hfail
    unfold Store.set
    simp only [hfail']
  constructor
  · exact hmain st rfl
  · intro registry ms hmem hany hget
    have hfalse :
        (sectionResultPure true n e (jsGetProp n (.obj ms)) st.setFail).success = false := by
      rw [sectionResultPure, hget, hmain (storeOfSetFail st.setFail) rfl]
    exact processedResults_member_false true ms st.setFail n e hany hfalse registry hmem

/-- Witness for C6: schema `{name, age}` with atoms `name → 0`, `age → 1`,
a store whose write to atom `1` throws `boom`: the `name` write remains
applied, the section fails with
`Failed to set atom for field age: boom`. -/
theorem write_throw_witness :
    (exUserSchema.safeParse exUserData = .ok exUserData) ∧
      jsEntries exUserData =
        [("name".toList, Json.str "A".toList)] ++ ("age".toList, Json.num 1) :: [] ∧
      processSection true "user".toList
          { schema := exUserSchema, atoms := [("name".toList, 0), ("age".toList, 1)],
            persisted := [] }
          exUserData
          { cells := fun _ => .null,
            setFail := fun a => if a = 1 then some "boom".toList else none,
            readOutcome := fun _ => .value } =
        ((applyFlat true [("name".toList, 0), ("age".toList, 1)]
            [("name".toList, Json.str "A".toList)]
            { cells := fun _ => .null,
              setFail := fun a => if a = 1 then some "boom".toList else none,
              readOutcome := fun _ => .value } initSectionResult).1,
          { (applyFlat true [("name".toList, 0), ("age".toList, 1)]
              [("name".toList, Json.str "A".toList)]
              { cells := fun _ => .null,
                setFail := fun a => if a = 1 then some "boom".toList else none,
                readOutcome := fun _ => .value } initSectionResult).2 with
            success := false,
            error := some "Failed to set atom for field age: boom".toList }) :=
  ⟨by decide, by decide,
   (by
     have h :=
       (write_throw_stops_section "user".toList
         { schema := exUserSchema, atoms := [("name".toList, 0), ("age".toList, 1)],
           persisted := [] }
         exUserData exUserData
         { cells := fun _ => .null,
           setFail := fun a => if a = 1 then some "boom".toList else none,
           readOutcome := fun _ => .value }
         [("name".toList, Json.str "A".toList)] [] "age".toList (Json.num 1)
         "age".toList 1 "boom".toList
         (by decide) (by decide) (by decide) (by decide) (by decide) (by decide)
         (by decide) (by decide)).1
     rw [h]
     rfl)⟩

/-! ## C10: the object-storing pattern -/

/-- C10 — a section with exactly one atom, a schema introspecting to more
than one field, and the atom name in `persisted` — or `persisted` empty and
the atom name matching, contained in, or containing the section name — is
routed through the object-storing pattern whatever the mode: the strict
consistency check is skipped, the whole validated object is written into
the single atom (when that write does not throw), and `appliedFields` is
exactly the one-element list of the atom's name. -/
theorem object_storing_pattern_applies (strict : Bool) (n : Str) (e : RegistryEntry)
    (d data : Json) (st : Store) (aname : Str) (aid : Nat) (keys : List Str)
    (hatoms : e.atoms = [(aname, aid)])
    (hshape : e.schema.shape = some keys)
    (hkeys : keys.length > 1)
    (hrel :
      aname ∈ e.persisted ∨
        (e.persisted = [] ∧ (aname = n ∨ strContains n aname ∨ strContains aname n)))
    (hval : e.schema.safeParse d = .ok data)
    (hsf : st.setFail aid = none) :
    processSection strict n e d st =
      ({ st with cells := fun x => if x = aid then data else st.cells x },
        { success := true, error := none, warnings := none,
          appliedFields := some [aname] }) := by
  have hks : schemaKeysOf e data = keys := by
    rw [schemaKeysOf, hshape]
  have hpat : isObjectStoring n e (schemaKeysOf e data) = true := by
    rw [isObjectStoring, hatoms, hks]
    rcases hrel with hin | ⟨hpe, hname⟩
    · simp [hkeys, hin]
    · have hmatch : atomMatchesSection aname n = true := by
        rw [atomMatchesSection]
        rcases hname with h1 | h1 | h1 <;> simp [h1]
      simp [hkeys, hpe, hmatch]
  rw [processSection]
  simp only [hval, hpat, Bool.not_true, Bool.and_false, Bool.false_and, Bool.false_eq_true,
    if_false, if_true]
  rw [hatoms]
  unfold Store.set
  simp only [hsf]
  rfl

/-- Witness for C10: the `user` section with single atom `user` and schema
fields `{name, age}` — the whole object lands in atom `5`. -/
theorem object_storing_pattern_witness :
    objectAtomEntry.atoms = [("user".toList, 5)] ∧
      objectAtomEntry.schema.shape = some ["name".toList, "age".toList] ∧
      exUserSchema.safeParse exUserData = .ok exUserData ∧
      processSection true "user".toList objectAtomEntry exUserData exStore =
        ({ exStore with cells := fun x => if x = 5 then exUserData else exStore.cells x },
          { success := true, error := none, warnings := none,
            appliedFields := some ["user".toList] }) :=
  ⟨by decide, by decide, by decide,
   object_storing_pattern_applies true "user".toList objectAtomEntry exUserData exUserData
     exStore "user".toList 5 ["name".toList, "age".toList]
     (by decide) (by decide) (by decide)
     (Or.inr ⟨by decide, Or.inl rfl⟩) (by decide) (by decide)⟩

/-! ## C7 and C8: the readiness barrier -/

theorem insertUnique_mem (xs : List Nat) (a b : Nat) :
    b ∈ insertUnique xs a ↔ b ∈ xs ∨ b = a := by
  rw [insertUnique]
  split
  · rename_i h
    constructor
    · exact Or.inl
    · rintro (hb | rfl)
      · exact hb
      · exact h
  · simp

theorem insertUnique_nodup (xs : List Nat) (a : Nat) (h : xs.Nodup) :
    (insertUnique xs a).Nodup := by
  rw [insertUnique]
  split
  · exact h
  · rename_i hna
    simp [List.nodup_append, h, hna]

theorem foldl_insertUnique_mem : ∀ (l acc : List Nat) (b : Nat),
    b ∈ l.foldl insertUnique acc ↔ b ∈ acc ∨ b ∈ l
  | [], acc, b => by simp
  | x :: l, acc, b => by
      rw [List.foldl_cons, foldl_insertUnique_mem l _ b, insertUnique_mem]
      simp [or_assoc]

theorem foldl_insertUnique_nodup : ∀ (l acc : List Nat), acc.Nodup →
    (l.foldl insertUnique acc).Nodup
  | [], acc, h => h
  | x :: l, acc, h => foldl_insertUnique_nodup l _ (insertUnique_nodup _ _ h)

theorem persistedAtomSet_mem_aux (b : Nat) : ∀ (registry : Registry) (acc : List Nat),
    b ∈ registry.foldl (fun acc p => (persistedAtomsOf p.2).foldl insertUnique acc) acc ↔
      b ∈ acc ∨ ∃ p ∈ registry, b ∈ persistedAtomsOf p.2 := by
  intro registry
  induction registry with
  | nil =>
      intro acc
      rw [List.foldl_nil]
      constructor
      · exact Or.inl
      · rintro (h | ⟨p, hp, _⟩)
        · exact h
        · cases hp
  | cons q rest ih =>
      intro acc
      rw [List.foldl_cons, ih, foldl_insertUnique_mem]
      constructor
      · rintro ((h | h) | ⟨p, hp, hP⟩)
        · exact Or.inl h
        · exact Or.inr ⟨q, List.mem_cons_self .., h⟩
        · exact Or.inr ⟨p, List.mem_cons_of_mem _ hp, hP⟩
      · rintro (h | ⟨p, hp, hP⟩)
        · exact Or.inl (Or.inl h)
        · rcases List.mem_cons.mp hp with rfl | hp2
          · exact Or.inl (Or.inr hP)
          · exact Or.inr ⟨p, hp2, hP⟩

theorem persistedAtomSet_nodup_aux : ∀ (registry : Registry) (acc : List Nat), acc.Nodup →
    (registry.foldl (fun acc p => (persistedAtomsOf p.2).foldl insertUnique acc) acc).Nodup := by
  intro registry
  induction registry with
  | nil => intro acc h; exact h
  | cons q rest ih =>
      intro acc h
      rw [List.foldl_cons]
      exact ih _ (foldl_insertUnique_nodup _ _ h)

/-- C7 — the barrier's atom set holds exactly the atoms reachable from some
section's `persisted` list through that section's atom map (a persisted
name with no atom contributes nothing), each at most once; when the set is
empty the barrier resolves immediately with no timer started; and in every
case the store comes back untouched — the barrier writes no cell. -/
theorem barrier_set_skips_dedups_and_empty_resolves (registry : Registry)
    (timeoutMs : Option Nat) (st : Store) (sched : Sched) :
    (∀ a : Nat,
      a ∈ persistedAtomSet registry ↔
        ∃ p ∈ registry, ∃ k ∈ p.2.persisted, ∃ s : Str,
          (p.2.atoms.find? fun q => q.1 = k) = some (s, a)) ∧
      (persistedAtomSet registry).Nodup ∧
      (persistedAtomSet registry = [] →
        waitForPersistedAtomsFromRegistry registry timeoutMs st sched =
          ⟨.ok (), false, false, st⟩) ∧
      (waitForPersistedAtomsFromRegistry registry timeoutMs st sched).store = st := by
  refine ⟨?_, ?_, ?_, ?_⟩
  · intro a
    rw [persistedAtomSet, persistedAtomSet_mem_aux a]
    simp only [List.not_mem_nil, false_or]
    constructor
    · rintro ⟨p, hp, hmem⟩
      rw [persistedAtomsOf, List.mem_filterMap] at hmem
      obtain ⟨k, hk, hf⟩ := hmem
      rw [Option.map_eq_some'] at hf
      obtain ⟨pr, hpr, hsnd⟩ := hf
      exact ⟨p, hp, k, hk, pr.1, by rw [hpr, ← hsnd]⟩
    · rintro ⟨p, hp, k, hk, s, hf⟩
      refine ⟨p, hp, ?_⟩
      rw [persistedAtomsOf, List.mem_filterMap]
      exact ⟨k, hk, by rw [hf]; rfl⟩
  · exact persistedAtomSet_nodup_aux registry [] List.nodup_nil
  · intro h
    rw [waitForPersistedAtomsFromRegistry]
    simp [h]
  · rw [waitForPersistedAtomsFromRegistry]
    split
    · rfl
    · split
      · rfl
      · split
        · rfl
        · rfl

/-- Witness for C7: the two-section registry with empty `persisted` lists
has an empty barrier set and resolves immediately, no timer, store
untouched. -/
theorem barrier_empty_witness :
    persistedAtomSet exRegistry = [] ∧
      waitForPersistedAtomsFromRegistry exRegistry (some 100) exStore
          { settle := fun _ => .fulfilled, timeoutFirst := true } =
        ⟨.ok (), false, false, exStore⟩ :=
  ⟨by decide,
   (barrier_set_skips_dedups_and_empty_resolves exRegistry (some 100) exStore
     { settle := fun _ => .fulfilled, timeoutFirst := true }).2.2.1 (by decide)⟩

/-- C8 — `timeoutMs` defaults to 3000; when pending promises exist and the
timeout wins the race, the barrier rejects with the message naming the
configured duration (`<t>ms` is a suffix of the message); and whenever the
timer was started it is also cleared, success and failure paths alike. -/
theorem barrier_timeout_names_duration_and_clears_timer (registry : Registry)
    (timeoutOpt : Option Nat) (st : Store) (sched : Sched) :
    (waitForPersistedAtomsFromRegistry registry none st sched =
        waitForPersistedAtomsFromRegistry registry (some 3000) st sched) ∧
      (∀ fs : List Nat,
        collectPromises st (persistedAtomSet registry) = .ok fs → fs ≠ [] →
        sched.timeoutFirst = true →
        (waitForPersistedAtomsFromRegistry registry timeoutOpt st sched).outcome =
          .error (timeoutMessage (timeoutOpt.getD 3000))) ∧
      List.IsSuffix (natDec (timeoutOpt.getD 3000) ++ "ms".toList)
        (timeoutMessage (timeoutOpt.getD 3000)) ∧
      ((waitForPersistedAtomsFromRegistry registry timeoutOpt st sched).timerStarted = true →
        (waitForPersistedAtomsFromRegistry registry timeoutOpt st sched).timerCleared = true) := by
  refine ⟨rfl, ?_, ?_, ?_⟩
  · intro fs hcol hne htf
    have hsetne : (persistedAtomSet registry).isEmpty = false := by
      cases hs : persistedAtomSet registry with
      | nil => rw [hs] at hcol; cases hcol; exact absurd rfl hne
      | cons a l => rfl
    rw [waitForPersistedAtomsFromRegistry]
    simp only [hsetne, Bool.false_eq_true, if_false, hcol]
    rw [if_neg (by simpa [List.isEmpty_iff] using hne)]
    simp only [htf, if_true]
  · exact ⟨"Timeout waiting for persisted atoms to load after ".toList, rfl⟩
  · rw [waitForPersistedAtomsFromRegistry]
    split
    · intro h; cases h
    · split
      · intro h; cases h
      · split
        · intro h; cases h
        · intro _; rfl

/-- One persisted atom whose read returns a promise. -/
def exAsyncStore : Store :=
  { cells := fun _ => .null,
    setFail := fun _ => none,
    readOutcome := fun a => if a = 0 then .futureValue 7 else .value }

/-- A registry with one persisted field `x` backed by atom `0`. -/
def exPersistedRegistry : Registry :=
  [("s".toList,
    { schema := exNameSchema, atoms := [("x".toList, 0)], persisted := ["x".toList] })]

/-- Witness for C8: with one pending promise and `timeoutMs = 100`, the
barrier rejects with the timeout message, which ends in `100ms`. -/
theorem barrier_timeout_witness :
    collectPromises exAsyncStore (persistedAtomSet exPersistedRegistry) = .ok [7] ∧
      natDec 100 ++ "ms".toList = "100ms".toList ∧
      (waitForPersistedAtomsFromRegistry exPersistedRegistry (some 100) exAsyncStore
          { settle := fun _ => .fulfilled, timeoutFirst := true }).outcome =
        .error (timeoutMessage 100) :=
  ⟨by decide, by decide,
   (barrier_timeout_names_duration_and_clears_timer exPersistedRegistry (some 100)
     exAsyncStore { settle := fun _ => .fulfilled, timeoutFirst := true }).2.1
     [7] (by decide) (by decide) rfl⟩

/-! ## C2: the replay guard

Supporting facts: hydration changes only cell values (`setFail` and
`readOutcome` come back unchanged), the barrier's behaviour depends on the
store only through `readOutcome`, and `setItem` makes `getItem` truthy. -/

theorem hydrateSections_store_fields (strict : Bool) (decoded : Json) :
    ∀ (registry : Registry) (st : Store) (acc : HydrationResult) (st2 : Store)
      (res : HydrationResult),
      hydrateSections strict decoded registry st acc = .ok (st2, res) →
      st2.setFail = st.setFail ∧ st2.readOutcome = st.readOutcome := by
  intro registry
  induction registry with
  | nil =>
      intro st acc st2 res h
      rw [hydrateSections] at h
      cases h
      exact ⟨rfl, rfl⟩
  | cons p rest ih =>
      intro st acc st2 res h
      obtain ⟨n, e⟩ := p
      rw [hydrateSections] at h
      cases hprop : jsHasProp n decoded with
      | error m => rw [hprop] at h; cases h
      | ok b =>
          rw [hprop] at h
          cases b with
          | false => exact ih st acc st2 res h
          | true =>
              obtain ⟨h1, h2⟩ := ih _ _ _ _ h
              obtain ⟨h3, h4⟩ := processSection_setFail strict n e (jsGetProp n decoded) st
              exact ⟨h1.trans h3, h2.trans h4⟩

theorem hydrate_store_fields (env : HostEnv) (blob : JsVal) (registry : Registry)
    (strictOpt : Option Bool) (st : Store) (res : HydrationResult) (st2 : Store)
    (h : hydrateFromEncodedBlob env blob registry strictOpt st = .ok (res, st2)) :
    st2.setFail = st.setFail ∧ st2.readOutcome = st.readOutcome := by
  rw [hydrateFromEncodedBlob] at h
  cases hdec : decodeHydrationBlob env blob with
  | error m =>
      rw [hdec] at h
      cases h
      exact ⟨rfl, rfl⟩
  | ok decoded =>
      simp only [hdec] at h
      cases hrun : hydrateSections (strictOpt != some false) decoded registry st ⟨[], true⟩ with
      | error m => simp only [hrun] at h; cases h
      | ok pr =>
          simp only [hrun] at h
          obtain ⟨st3, res3⟩ := pr
          cases h
          exact hydrateSections_store_fields _ _ _ _ _ _ _ hrun

theorem collectPromises_congr (st st' : Store) (h : st.readOutcome = st'.readOutcome) :
    ∀ l : List Nat, collectPromises st l = collectPromises st' l := by
  intro l
  induction l with
  | nil => rfl
  | cons a rest ih =>
      rw [collectPromises, collectPromises, h, ih]

/-- The barrier hands the store back unchanged (it has no `set` call). -/
theorem barrier_store_id (registry : Registry) (tm : Option Nat) (st : Store) (sched : Sched) :
    (waitForPersistedAtomsFromRegistry registry tm st sched).store = st := by
  rw [waitForPersistedAtomsFromRegistry]
  split
  · rfl
  · split
    · rfl
    · split
      · rfl
      · rfl

/-- Two stores agreeing on `readOutcome` give barrier runs agreeing
everywhere except the returned store. -/
theorem barrier_congr (registry : Registry) (tm : Option Nat) (st st' : Store) (sched : Sched)
    (h : st.readOutcome = st'.readOutcome) :
    waitForPersistedAtomsFromRegistry registry tm st sched =
      { waitForPersistedAtomsFromRegistry registry tm st' sched with store := st } := by
  rw [waitForPersistedAtomsFromRegistry, waitForPersistedAtomsFromRegistry]
  rw [collectPromises_congr st st' h]
  split
  · rfl
  · cases hcol : collectPromises st' (persistedAtomSet registry) with
    | error m => simp only [hcol]
    | ok fs =>
        simp only [hcol]
        split
        · rfl
        · rfl

theorem lsGet_lsSet (ls : List (Str × Str)) (k v : Str) : lsGet (lsSet ls k v) k = some v := by
  rw [lsSet]
  split
  · rename_i hsome
    induction ls with
    | nil => simp at hsome
    | cons p rest ih =>
        by_cases hp : p.1 = k
        · simp [lsGet, List.find?_cons, hp]
        · rw [List.map_cons, if_neg hp]
          rw [lsGet, List.find?_cons_of_neg _ (by simpa using hp), ← lsGet]
          rw [List.find?_cons_of_neg _ (by simpa using hp)] at hsome
          exact ih hsome
  · rename_i hnone
    induction ls with
    | nil => simp [lsGet, List.find?_cons]
    | cons p rest ih =>
        by_cases hp : p.1 = k
        · rw [List.find?_cons_of_pos _ (by simpa using hp)] at hnone
          simp at hnone
        · rw [List.cons_append, lsGet, List.find?_cons_of_neg _ (by simpa using hp), ← lsGet]
          rw [List.find?_cons_of_neg _ (by simpa using hp)] at hnone
          exact ih hnone

theorem assocMerge_nil (upd : List (Str × SectionResult)) : assocMerge [] upd = upd := by
  rw [assocMerge]
  simp

/-- C2 — once a bootstrap run with an explicit token completes with
`overallSuccess = true`, the token's derived storage key is truthy in
`localStorage`, and a later orchestration run handed the same token skips
decoding and hydrating it entirely: it publishes an empty aggregate
(`sections = {}`, `overallSuccess = true`, so no new writes are reported)
and returns a world identical to its input except for the published result
— in particular the store, and with it every cell, is untouched, so the
token's cell writes are applied only once across the two runs. -/
theorem replay_guard_idempotent (env : HostEnv) (registry : Registry)
    (opts : BootstrapOptions) (w : World) (sched : Sched) (t : Str)
    (r : HydrationResult) (w1 : World)
    (hblob : opts.blob = some t)
    (hrun1 : bootstrapHydration env registry opts w sched = .ok (some r, w1))
    (hsucc : r.overallSuccess = true) :
    jsTruthyStr (lsGet w1.localStorage (storageKeyFor t)) = true ∧
      bootstrapHydration env registry opts w1 sched =
        .ok (some ⟨[], true⟩, { w1 with published := some (⟨[], true⟩ : HydrationResult) }) := by
  suffices hsuf :
      jsTruthyStr (lsGet w1.localStorage (storageKeyFor t)) = true ∧
        w1.store.readOutcome = w.store.readOutcome ∧
        (waitForPersistedAtomsFromRegistry registry opts.timeoutMs w.store sched).outcome
          = .ok () by
    obtain ⟨hls, hro, hbar⟩ := hsuf
    refine ⟨hls, ?_⟩
    rw [bootstrapHydration]
    simp only [discoverBlobs, hblob, List.isEmpty_cons, Bool.false_eq_true, if_false]
    have hbar2 :
        (waitForPersistedAtomsFromRegistry registry opts.timeoutMs w1.store sched).outcome
          = .ok () := by
      rw [barrier_congr registry opts.timeoutMs w1.store w.store sched hro]
      exact hbar
    simp only [barrier_store_id, hbar2, bootstrapLoop, hls, if_true]
  -- dissect the first run
  rw [bootstrapHydration] at hrun1
  simp only [discoverBlobs, hblob, List.isEmpty_cons, Bool.false_eq_true, if_false,
    barrier_store_id] at hrun1
  cases hbar : (waitForPersistedAtomsFromRegistry registry opts.timeoutMs w.store sched).outcome
    with
  | error m =>
      rw [hbar] at hrun1
      simp only [bootstrapCatch] at hrun1
      cases hrun1
  | ok u =>
      cases u
      rw [hbar] at hrun1
      cases hts : jsTruthyStr (lsGet w.localStorage (storageKeyFor t)) with
      | true =>
          simp only [bootstrapLoop, hts, if_true] at hrun1
          cases hrun1
          exact ⟨hts, rfl, rfl⟩
      | false =>
          simp only [bootstrapLoop, hts, Bool.false_eq_true, if_false] at hrun1
          cases hhyd : hydrateFromEncodedBlob env (.str t) registry opts.strict w.store with
          | error pr =>
              rw [hhyd] at hrun1
              simp only [bootstrapCatch] at hrun1
              cases hrun1
          | ok pr =>
              obtain ⟨res, st2⟩ := pr
              rw [hhyd] at hrun1
              cases hos : res.overallSuccess with
              | false =>
                  simp only [hos, Bool.false_eq_true, if_false, bootstrapLoop,
                    Bool.true_and] at hrun1
                  cases hrun1
                  simp at hsucc
              | true =>
                  simp only [hos, if_true, bootstrapLoop, Bool.true_and] at hrun1
                  cases hrun1
                  refine ⟨?_, ?_, rfl⟩
                  · rw [lsGet_lsSet]
                    rfl
                  · exact (hydrate_store_fields env (.str t) registry opts.strict w.store
                      res st2 hhyd).2

/-- The token `{user: {name: "A"}}` for the replay-guard witness. -/
def exC2Tok : Str :=
  createHydrationBlob (.obj [("user".toList, .obj [("name".toList, .str "A".toList)])])

/-- A fresh world: empty replay guard, no queued blobs, no URL token. -/
def exC2World : World :=
  { store := exStore, localStorage := [], windowBlobs := [], urlHydrate := none,
    published := none }

/-- Options handing the orchestrator the explicit token. -/
def exC2Opts : BootstrapOptions := { blob := some exC2Tok }

/-- A scheduler on which every promise fulfills first. -/
def exC2Sched : Sched := { settle := fun _ => .fulfilled, timeoutFirst := false }

/-- The first orchestration run of the replay-guard witness. -/
def exC2Run1 : Except (Str × World) (Option HydrationResult × World) :=
  bootstrapHydration .node exRegistry exC2Opts exC2World exC2Sched

/-- The first run's published result. -/
def exC2Res1 : HydrationResult :=
  match exC2Run1 with
  | .ok (some r, _) => r
  | _ => ⟨[], false⟩

/-- The world the first run leaves behind. -/
def exC2World1 : World :=
  match exC2Run1 with
  | .ok (_, w1) => w1
  | .error (_, w1) => w1

/-- Witness for C2: the concrete first run succeeds and records the replay
key; the second run with the same token skips hydration and leaves the
world unchanged but for the published empty aggregate. -/
theorem replay_guard_witness :
    bootstrapHydration .node exRegistry exC2Opts exC2World exC2Sched =
        .ok (some exC2Res1, exC2World1) ∧
      exC2Res1.overallSuccess = true ∧
      jsTruthyStr (lsGet exC2World1.localStorage (storageKeyFor exC2Tok)) = true ∧
      bootstrapHydration .node exRegistry exC2Opts exC2World1 exC2Sched =
        .ok (some ⟨[], true⟩, { exC2World1 with published := some (⟨[], true⟩ : HydrationResult) }) :=
  ⟨rfl, by decide,
   (replay_guard_idempotent .node exRegistry exC2Opts exC2World exC2Sched exC2Tok
     exC2Res1 exC2World1 rfl rfl (by decide)).1,
   (replay_guard_idempotent .node exRegistry exC2Opts exC2World exC2Sched exC2Tok
     exC2Res1 exC2World1 rfl rfl (by decide)).2⟩

/-! ## UTF-8 round trip -/

theorem char_valid_ranges (c : Char) :
    c.toNat < 0xD800 ∨ (0xDFFF < c.toNat ∧ c.toNat < 0x110000) := by
  have h := c.valid
  rw [UInt32.isValidChar] at h
  rcases h with h | ⟨h1, h2⟩
  · left; exact h
  · right; exact ⟨h1, h2⟩

theorem utf8Char_lt_256 (c : Char) : ∀ b ∈ utf8Char c, b < 256 := by
  intro b hb
  have hv := char_valid_ranges c
  rw [utf8Char] at hb
  split at hb
  · simp only [List.mem_singleton] at hb
    omega
  · split at hb
    · simp only [List.mem_cons, List.not_mem_nil, or_false] at hb
      rcases hb with rfl | rfl <;> omega
    · split at hb
      · simp only [List.mem_cons, List.not_mem_nil, or_false] at hb
        rcases hb with rfl | rfl | rfl <;> omega
      · simp only [List.mem_cons, List.not_mem_nil, or_false] at hb
        rcases hb with rfl | rfl | rfl | rfl <;> omega

theorem utf8Step_rest_le (b : Nat) (bs : List Nat) :
    (utf8Step b bs).2.length ≤ bs.length := by
  rw [utf8Step.eq_def]
  repeat' split
  all_goals simp [List.length_cons]
  all_goals omega

theorem utf8DecodeWith_fuel : ∀ (fuel fuel2 : Nat) (bytes : List Nat),
    bytes.length ≤ fuel → bytes.length ≤ fuel2 →
    utf8DecodeWith fuel bytes = utf8DecodeWith fuel2 bytes := by
  intro fuel
  induction fuel with
  | zero =>
      intro fuel2 bytes h1 h2
      rw [List.length_eq_zero.mp (Nat.le_zero.mp h1)]
      cases fuel2 <;> rfl
  | succ fuel ih =>
      intro fuel2 bytes h1 h2
      cases bytes with
      | nil => cases fuel2 <;> rfl
      | cons b bs =>
          cases fuel2 with
          | zero => simp at h2
          | succ fuel2 =>
              rw [utf8DecodeWith, utf8DecodeWith]
              cases hstep : utf8Step b bs with
              | mk c rest =>
                  have hle : rest.length ≤ bs.length := by
                    have := utf8Step_rest_le b bs
                    rw [hstep] at this
                    exact this
                  rw [List.length_cons] at h1 h2
                  simp only []
                  rw [ih fuel2 rest (by omega) (by omega)]

theorem utf8Step_char (c : Char) (rest : List Nat) :
    ∃ b tail, utf8Char c = b :: tail ∧ utf8Step b (tail ++ rest) = (c, rest) := by
  have hv := char_valid_ranges c
  have hofn : Char.ofNat c.toNat = c := Char.ofNat_toNat c
  rw [utf8Char]
  by_cases h1 : c.toNat < 0x80
  · refine ⟨c.toNat, [], by rw [if_pos h1], ?_⟩
    rw [List.nil_append, utf8Step.eq_def, if_pos h1, hofn]
  · rw [if_neg h1]
    by_cases h2 : c.toNat < 0x800
    · refine ⟨0xC0 + c.toNat / 64, [0x80 + c.toNat % 64], by rw [if_pos h2], ?_⟩
      rw [List.cons_append, List.nil_append, utf8Step.eq_def]
      rw [if_neg (by omega), if_neg (by omega), if_pos (by omega)]
      have hcont : contByte (0x80 + c.toNat % 64) = true := by
        simp only [contByte, Bool.and_eq_true, decide_eq_true_eq]
        omega
      simp only [hcont, if_true]
      have harith : (0xC0 + c.toNat / 64 - 0xC0) * 64 + (0x80 + c.toNat % 64 - 0x80)
          = c.toNat := by omega
      rw [harith, hofn]
    · rw [if_neg h2]
      by_cases h3 : c.toNat < 0x10000
      · refine ⟨0xE0 + c.toNat / 4096, [0x80 + c.toNat / 64 % 64, 0x80 + c.toNat % 64],
          by rw [if_pos h3], ?_⟩
        rw [List.cons_append, List.cons_append, List.nil_append, utf8Step.eq_def]
        rw [if_neg (by omega), if_neg (by omega), if_neg (by omega), if_pos (by omega)]
        have hlead : lead3Ok (0xE0 + c.toNat / 4096) (0x80 + c.toNat / 64 % 64) = true := by
          rw [lead3Ok]
          by_cases he0 : c.toNat / 4096 = 0
          · rw [if_pos (by omega)]
            simp only [Bool.and_eq_true, decide_eq_true_eq]
            omega
          · rw [if_neg (by omega)]
            by_cases hed : c.toNat / 4096 = 13
            · rw [if_pos (by omega)]
              simp only [Bool.and_eq_true, decide_eq_true_eq]
              omega
            · rw [if_neg (by omega)]
              simp only [contByte, Bool.and_eq_true, decide_eq_true_eq]
              omega
        have hcont : contByte (0x80 + c.toNat % 64) = true := by
          simp only [contByte, Bool.and_eq_true, decide_eq_true_eq]
          omega
        simp only [hlead, hcont, if_true]
        have harith : (0xE0 + c.toNat / 4096 - 0xE0) * 4096
            + (0x80 + c.toNat / 64 % 64 - 0x80) * 64 + (0x80 + c.toNat % 64 - 0x80)
            = c.toNat := by omega
        rw [harith, hofn]
      · refine ⟨0xF0 + c.toNat / 262144,
          [0x80 + c.toNat / 4096 % 64, 0x80 + c.toNat / 64 % 64, 0x80 + c.toNat % 64],
          by rw [if_neg h3], ?_⟩
        rw [List.cons_append, List.cons_append, List.cons_append, List.nil_append, utf8Step.eq_def]
        rw [if_neg (by omega), if_neg (by omega), if_neg (by omega), if_neg (by omega),
          if_pos (by omega)]
        have hlead : lead4Ok (0xF0 + c.toNat / 262144) (0x80 + c.toNat / 4096 % 64) = true := by
          rw [lead4Ok]
          by_cases hf0 : c.toNat / 262144 = 0
          · rw [if_pos (by omega)]
            simp only [Bool.and_eq_true, decide_eq_true_eq]
            omega
          · rw [if_neg (by omega)]
            by_cases hf4 : c.toNat / 262144 = 4
            · rw [if_pos (by omega)]
              simp only [Bool.and_eq_true, decide_eq_true_eq]
              omega
            · rw [if_neg (by omega)]
              simp only [contByte, Bool.and_eq_true, decide_eq_true_eq]
              omega
        have hcont2 : contByte (0x80 + c.toNat / 64 % 64) = true := by
          simp only [contByte, Bool.and_eq_true, decide_eq_true_eq]
          omega
        have hcont3 : contByte (0x80 + c.toNat % 64) = true := by
          simp only [contByte, Bool.and_eq_true, decide_eq_true_eq]
          omega
        simp only [hlead, hcont2, hcont3, if_true]
        have harith : (0xF0 + c.toNat / 262144 - 0xF0) * 262144
            + (0x80 + c.toNat / 4096 % 64 - 0x80) * 4096
            + (0x80 + c.toNat / 64 % 64 - 0x80) * 64 + (0x80 + c.toNat % 64 - 0x80)
            = c.toNat := by omega
        rw [harith, hofn]

theorem utf8Decode_char (c : Char) (rest : List Nat) :
    utf8Decode (utf8Char c ++ rest) = c :: utf8Decode rest := by
  obtain ⟨b, tail, hchar, hstep⟩ := utf8Step_char c rest
  rw [utf8Decode, utf8Decode, hchar, List.cons_append, List.length_cons, utf8DecodeWith]
  simp only [hstep]
  rw [utf8DecodeWith_fuel (tail ++ rest).length rest.length rest
    (by simp [List.length_append]) (le_refl _)]

theorem utf8Decode_encode (s : Str) : utf8Decode (utf8Encode s) = s := by
  induction s with
  | nil => rfl
  | cons c cs ih => rw [utf8Encode, utf8Decode_char, ih]

theorem utf8Encode_lt_256 (s : Str) : ∀ b ∈ utf8Encode s, b < 256 := by
  induction s with
  | nil => intro b hb; cases hb
  | cons c cs ih =>
      intro b hb
      rw [utf8Encode, List.mem_append] at hb
      rcases hb with h | h
      · exact utf8Char_lt_256 c b h
      · exact ih b h

/-! ## Base64 round trip -/

theorem bytesToSextets_lt_64 : ∀ bs : List Nat, (∀ b ∈ bs, b < 256) →
    ∀ s ∈ bytesToSextets bs, s < 64
  | [], _ => by intro s hs; cases hs
  | [b0], h => by
      intro s hs
      have hb0 : b0 < 256 := h b0 (by simp)
      rw [bytesToSextets] at hs
      simp only [List.mem_cons, List.not_mem_nil, or_false] at hs
      rcases hs with rfl | rfl <;> omega
  | [b0, b1], h => by
      intro s hs
      have hb0 : b0 < 256 := h b0 (by simp)
      have hb1 : b1 < 256 := h b1 (by simp)
      rw [bytesToSextets] at hs
      simp only [List.mem_cons, List.not_mem_nil, or_false] at hs
      rcases hs with rfl | rfl | rfl <;> omega
  | b0 :: b1 :: b2 :: rest, h => by
      intro s hs
      have hb0 : b0 < 256 := h b0 (by simp)
      have hb1 : b1 < 256 := h b1 (by simp)
      have hb2 : b2 < 256 := h b2 (by simp)
      rw [bytesToSextets] at hs
      simp only [List.cons_append, List.nil_append, List.mem_cons] at hs
      rcases hs with rfl | rfl | rfl | rfl | hs
      · omega
      · omega
      · omega
      · omega
      · exact bytesToSextets_lt_64 rest (fun b hb => h b (by simp [hb])) s hs

theorem sextetsToBytes_bytesToSextets : ∀ bs : List Nat, (∀ b ∈ bs, b < 256) →
    sextetsToBytes (bytesToSextets bs) = bs
  | [], _ => rfl
  | [b0], h => by
      have hb0 : b0 < 256 := h b0 (by simp)
      rw [bytesToSextets, sextetsToBytes]
      have e0 : b0 / 4 * 4 + b0 % 4 * 16 / 16 = b0 := by omega
      rw [e0]
  | [b0, b1], h => by
      have hb0 : b0 < 256 := h b0 (by simp)
      have hb1 : b1 < 256 := h b1 (by simp)
      rw [bytesToSextets, sextetsToBytes]
      have e0 : b0 / 4 * 4 + (b0 % 4 * 16 + b1 / 16) / 16 = b0 := by omega
      have e1 : (b0 % 4 * 16 + b1 / 16) % 16 * 16 + b1 % 16 * 4 / 4 = b1 := by omega
      rw [e0, e1]
  | b0 :: b1 :: b2 :: rest, h => by
      have hb0 : b0 < 256 := h b0 (by simp)
      have hb1 : b1 < 256 := h b1 (by simp)
      have hb2 : b2 < 256 := h b2 (by simp)
      rw [bytesToSextets, sextetsToBytes]
      have e0 : b0 / 4 * 4 + (b0 % 4 * 16 + b1 / 16) / 16 = b0 := by omega
      have e1 : (b0 % 4 * 16 + b1 / 16) % 16 * 16 + (b1 % 16 * 4 + b2 / 64) / 4 = b1 := by
        omega
      have e2 : (b1 % 16 * 4 + b2 / 64) % 4 * 64 + b2 % 64 = b2 := by omega
      rw [e0, e1, e2, sextetsToBytes_bytesToSextets rest (fun b hb => h b (by simp [hb]))]

theorem bytesToSextets_length_mod : ∀ bs : List Nat,
    (bytesToSextets bs).length % 4 = 0 ∨ (bytesToSextets bs).length % 4 = 2 ∨
      (bytesToSextets bs).length % 4 = 3
  | [] => by left; rfl
  | [b0] => by right; left; rfl
  | [b0, b1] => by right; right; rfl
  | b0 :: b1 :: b2 :: rest => by
      rw [bytesToSextets]
      have ih := bytesToSextets_length_mod rest
      simp only [List.length_cons]
      omega

theorem charSextet_sextetChar : ∀ s, s < 64 → charSextet (sextetChar s) = some s := by
  decide

theorem sextetChar_ne_eq : ∀ s, s < 64 →
    toUrlSafeChar (sextetChar s) ≠ '=' ∧
      fromUrlSafeChar (toUrlSafeChar (sextetChar s)) = sextetChar s ∧
      toUrlSafeChar (sextetChar s) ≠ '+' ∧
      toUrlSafeChar (sextetChar s) ≠ '/' := by
  decide

theorem takeWhile_all_append {α : Type} (p : α → Bool) (xs ys : List α)
    (h : ∀ x ∈ xs, p x = true) :
    (xs ++ ys).takeWhile p = xs ++ ys.takeWhile p := by
  induction xs with
  | nil => rfl
  | cons x t ih =>
      rw [List.cons_append, List.takeWhile_cons, h x (by simp), List.cons_append,
        ih fun y hy => h y (by simp [hy])]
      simp

theorem takeWhile_replicate_eq (n : Nat) :
    (List.replicate n '=').takeWhile (fun c => c ≠ '=') = [] := by
  cases n with
  | zero => rfl
  | succ n => rw [List.replicate_succ, List.takeWhile_cons]; simp

theorem filterMap_charSextet_map : ∀ ss : List Nat, (∀ s ∈ ss, s < 64) →
    (ss.map sextetChar).filterMap charSextet = ss
  | [], _ => rfl
  | s :: ss, h => by
      rw [List.map_cons, List.filterMap_cons, charSextet_sextetChar s (h s (by simp))]
      rw [filterMap_charSextet_map ss fun x hx => h x (by simp [hx])]

theorem filter_ne_pad_replicate (k : Nat) :
    (List.replicate k '=').filter (fun c => c ≠ '=') = [] := by
  induction k with
  | zero => rfl
  | succ k ih => rw [List.replicate_succ, List.filter_cons]; simp [ih]

theorem nodeBase64Bytes_padded (body : Str) (hne : ∀ c ∈ body, c ≠ '=') :
    nodeBase64Bytes (padBase64 body) = sextetsToBytes (body.filterMap charSextet) := by
  rw [padBase64, nodeBase64Bytes]
  rw [takeWhile_all_append _ _ _ (fun c hc => by simpa using hne c hc)]
  rw [takeWhile_replicate_eq, List.append_nil]

theorem take_reverse_ne_pad (body : Str) (hne : ∀ c ∈ body, c ≠ '=') (n : Nat) (l : Str)
    (h : body.reverse.take (n + 1) = '=' :: l) : False := by
  cases hbrv : body.reverse with
  | nil => rw [hbrv] at h; cases h
  | cons a t =>
      rw [hbrv, List.take_succ_cons] at h
      injection h with h1 _
      have ha : a ∈ body := List.mem_reverse.mp (hbrv ▸ List.mem_cons_self a t)
      exact hne a ha h1

theorem stripBase64Pad_padBase64 (body : Str) (hne : ∀ c ∈ body, c ≠ '=')
    (hmod : body.length % 4 ≠ 1) : stripBase64Pad (padBase64 body) = body := by
  have htk2 : body.reverse.take 2 ≠ ['=', '='] := fun h =>
    take_reverse_ne_pad body hne 1 ['='] h
  have htk1 : body.reverse.take 1 ≠ ['='] := fun h =>
    take_reverse_ne_pad body hne 0 [] h
  have hkcase : (4 - body.length % 4) % 4 = 0 ∨ (4 - body.length % 4) % 4 = 1 ∨
      (4 - body.length % 4) % 4 = 2 := by omega
  rcases hkcase with hk | hk | hk
  · have hpad : padBase64 body = body := by
      rw [padBase64, hk, List.replicate_zero, List.append_nil]
    rw [hpad, stripBase64Pad, if_pos (by omega), if_neg htk2, if_neg htk1]
  · have hpad : padBase64 body = body ++ ['='] := by
      rw [padBase64, hk]
      rfl
    have hlen3 : body.length % 4 = 3 := by omega
    obtain ⟨a, t, hbrv⟩ : ∃ a t, body.reverse = a :: t := by
      cases hbrv : body.reverse with
      | nil =>
          have : body.length = 0 := by
            rw [← List.length_reverse, hbrv]
            rfl
          omega
      | cons a t => exact ⟨a, t, rfl⟩
    have hane : a ≠ '=' :=
      hne a (List.mem_reverse.mp (hbrv ▸ List.mem_cons_self a t))
    rw [hpad, stripBase64Pad]
    rw [if_pos (by simp [List.length_append]; omega)]
    rw [List.reverse_append, show (['='] : Str).reverse = ['='] from rfl, List.cons_append,
      List.nil_append, hbrv]
    rw [show ('=' :: (a :: t)).take 2 = ['=', a] from rfl]
    rw [if_neg (by intro h; injection h with _ h2; injection h2 with h2 _; exact hane h2)]
    rw [show ('=' :: (a :: t)).take 1 = ['='] from rfl]
    rw [if_pos rfl]
    rw [show ('=' :: (a :: t)).drop 1 = a :: t from rfl]
    rw [← hbrv, List.reverse_reverse]
  · have hpad : padBase64 body = body ++ ['=', '='] := by
      rw [padBase64, hk]
      rfl
    rw [hpad, stripBase64Pad]
    rw [if_pos (by simp [List.length_append]; omega)]
    rw [List.reverse_append, show (['=', '='] : Str).reverse = ['=', '='] from rfl,
      List.cons_append, List.cons_append, List.nil_append]
    rw [show ('=' :: '=' :: body.reverse).take 2 = ['=', '='] from rfl]
    rw [if_pos rfl]
    rw [show ('=' :: '=' :: body.reverse).drop 2 = body.reverse from rfl]
    rw [List.reverse_reverse]

theorem atobBytes_padded (body : Str) (hne : ∀ c ∈ body, c ≠ '=')
    (hmod : body.length % 4 ≠ 1) (hsx : ∀ c ∈ body, (charSextet c).isSome = true) :
    atobBytes (padBase64 body) = some (sextetsToBytes (body.filterMap charSextet)) := by
  rw [atobBytes, stripBase64Pad_padBase64 body hne hmod, atobChecked, if_neg hmod,
    if_pos (List.all_eq_true.mpr hsx)]

theorem sextetChar_ne_pad : ∀ s, s < 64 →
    sextetChar s ≠ '=' ∧ (charSextet (sextetChar s)).isSome = true := by
  decide

theorem map_fromTo (ss : List Nat) (h : ∀ s ∈ ss, s < 64) :
    ((ss.map sextetChar).map toUrlSafeChar).map fromUrlSafeChar = ss.map sextetChar := by
  induction ss with
  | nil => rfl
  | cons s t ih =>
      simp only [List.map_cons]
      rw [(sextetChar_ne_eq s (h s (by simp))).2.1, ih fun x hx => h x (by simp [hx])]

theorem decodeUrlSafe_encodeUrlSafe (env : HostEnv) (json : Str) :
    decodeUrlSafeBase64 env (encodeUrlSafeBase64 json) =
      .ok (utf8Decode (utf8Encode json)) := by
  have hblt := utf8Encode_lt_256 json
  have hslt := bytesToSextets_lt_64 (utf8Encode json) hblt
  have hne : ∀ c ∈ (bytesToSextets (utf8Encode json)).map sextetChar, c ≠ '=' := by
    intro c hc
    rw [List.mem_map] at hc
    obtain ⟨s, hs, rfl⟩ := hc
    exact (sextetChar_ne_pad s (hslt s hs)).1
  have hsx : ∀ c ∈ (bytesToSextets (utf8Encode json)).map sextetChar,
      (charSextet c).isSome = true := by
    intro c hc
    rw [List.mem_map] at hc
    obtain ⟨s, hs, rfl⟩ := hc
    exact (sextetChar_ne_pad s (hslt s hs)).2
  have hmod : ((bytesToSextets (utf8Encode json)).map sextetChar).length % 4 ≠ 1 := by
    rw [List.length_map]
    have := bytesToSextets_length_mod (utf8Encode json)
    omega
  have henc : encodeUrlSafeBase64 json
      = ((bytesToSextets (utf8Encode json)).map sextetChar).map toUrlSafeChar := by
    rw [encodeUrlSafeBase64, base64Std]
    rw [List.map_append, List.map_replicate]
    rw [show toUrlSafeChar '=' = '=' from rfl]
    rw [List.filter_append, filter_ne_pad_replicate, List.append_nil]
    rw [List.filter_eq_self.mpr]
    intro c hc
    rw [List.mem_map] at hc
    obtain ⟨d, hd, rfl⟩ := hc
    rw [List.mem_map] at hd
    obtain ⟨s, hs, rfl⟩ := hd
    simpa using (sextetChar_ne_eq s (hslt s hs)).1
  have hunsub :
      unSubstitute (((bytesToSextets (utf8Encode json)).map sextetChar).map toUrlSafeChar)
        = (bytesToSextets (utf8Encode json)).map sextetChar := by
    rw [unSubstitute]
    exact map_fromTo _ hslt
  rw [henc]
  cases env with
  | node =>
      rw [decodeUrlSafeBase64]
      simp only [hunsub]
      rw [nodeBase64Bytes_padded _ hne, filterMap_charSextet_map _ hslt,
        sextetsToBytes_bytesToSextets _ hblt]
  | browser =>
      rw [decodeUrlSafeBase64]
      simp only [hunsub]
      rw [atobBytes_padded _ hne hmod hsx, filterMap_charSextet_map _ hslt,
        sextetsToBytes_bytesToSextets _ hblt]


/-! ## The blob round trip (claims C1 and C9)

The decimal, string-escape and JSON layers of `JSON.stringify` invert under
the `JSON.parse` model, and the URL-safe base64 layer inverts under both
host decoders, so `decodeHydrationBlob` recovers every value
`createHydrationBlob` encodes. -/

theorem decDigitChar_toNat (d : Nat) (h : d < 10) : (decDigitChar d).toNat = 48 + d := by
  interval_cases d <;> rfl

theorem digitsVal_append_one (ds : Str) (c : Char) :
    digitsVal (ds ++ [c]) = digitsVal ds * 10 + (c.toNat - 48) := by
  rw [digitsVal, List.foldl_append]
  rfl

theorem natDecWith_spec : ∀ fuel n, n < fuel →
    natDecWith fuel n ≠ [] ∧ (∀ c ∈ natDecWith fuel n, 48 ≤ c.toNat ∧ c.toNat ≤ 57) ∧
      digitsVal (natDecWith fuel n) = n := by
  intro fuel
  induction fuel with
  | zero => intro n h; omega
  | succ fuel ih =>
      intro n h
      rw [natDecWith]
      by_cases h10 : n < 10
      · rw [if_pos h10]
        refine ⟨by simp, ?_, ?_⟩
        · intro c hc
          rw [List.mem_singleton] at hc
          subst hc
          rw [decDigitChar_toNat n h10]
          omega
        · rw [show digitsVal [decDigitChar n] = 0 * 10 + ((decDigitChar n).toNat - 48) from rfl,
            decDigitChar_toNat n h10]
          omega
      · rw [if_neg h10]
        have hdivlt : n / 10 < n := Nat.div_lt_self (by omega) (by omega)
        obtain ⟨hne, hdig, hval⟩ := ih (n / 10) (by omega)
        refine ⟨by simp, ?_, ?_⟩
        · intro c hc
          rw [List.mem_append, List.mem_singleton] at hc
          rcases hc with hc | hc
          · exact hdig c hc
          · subst hc
            rw [decDigitChar_toNat _ (Nat.mod_lt _ (by omega))]
            omega
        · rw [digitsVal_append_one, hval, decDigitChar_toNat _ (Nat.mod_lt _ (by omega))]
          omega

theorem natDec_spec (n : Nat) :
    natDec n ≠ [] ∧ (∀ c ∈ natDec n, 48 ≤ c.toNat ∧ c.toNat ≤ 57) ∧
      digitsVal (natDec n) = n :=
  natDecWith_spec (n + 1) n (by omega)

theorem grabDigits_run (ds : Str) (hds : ∀ c ∈ ds, 48 ≤ c.toNat ∧ c.toNat ≤ 57)
    (rest : Str) (hrest : ∀ c r, rest = c :: r → isDecDigit c = false) :
    grabDigits (ds ++ rest) = (ds, rest) := by
  induction ds with
  | nil =>
      rw [List.nil_append]
      cases rest with
      | nil => rfl
      | cons c r =>
          rw [grabDigits, if_neg]
          rw [hrest c r rfl]
          simp
  | cons c cs ih =>
      rw [List.cons_append, grabDigits, if_pos, ih fun x hx => hds x (by simp [hx])]
      have := hds c (by simp)
      simp [isDecDigit]
      omega



/-- Character heads that may legally follow a JSON number or value. -/
def jsonDelim (rest : Str) : Prop :=
  ∀ c r, rest = c :: r → isDecDigit c = false ∧ c ≠ '.' ∧ c ≠ 'e' ∧ c ≠ 'E'

theorem jsonDelim_nil : jsonDelim [] := by intro c r h; cases h

theorem jsonDelim_comma (r : Str) : jsonDelim (',' :: r) := by
  intro c s h
  cases h
  refine ⟨by decide, by decide, by decide, by decide⟩

theorem jsonDelim_rbrack (r : Str) : jsonDelim (']' :: r) := by
  intro c s h
  cases h
  refine ⟨by decide, by decide, by decide, by decide⟩

theorem jsonDelim_rbrace (r : Str) : jsonDelim (braceR :: r) := by
  intro c s h
  cases h
  refine ⟨by decide, by decide, by decide, by decide⟩

theorem parseIntTail_run (neg : Bool) (n : Nat) (rest : Str) (hrest : jsonDelim rest) :
    parseIntTail neg (natDec n ++ rest) = some ((if neg then -1 else 1) * (n : Int), rest) := by
  obtain ⟨hne, hdig, hval⟩ := natDec_spec n
  rw [parseIntTail, grabDigits_run (natDec n) hdig rest fun c r h => (hrest c r h).1]
  show parseIntAfter neg (natDec n) rest = some ((if neg then -1 else 1) * (n : Int), rest)
  obtain ⟨d, ds, hds⟩ : ∃ d ds, natDec n = d :: ds := by
    cases h : natDec n with
    | nil => exact absurd h hne
    | cons d ds => exact ⟨d, ds, rfl⟩
  rw [parseIntAfter.eq_def, if_neg (by rw [hds]; simp), hval]
  cases rest with
  | nil => rfl
  | cons c r =>
      obtain ⟨h1, h2, h3, h4⟩ := hrest c r rfl
      simp [h2, h3, h4]

theorem parseIntLit_minus (x : Str) : parseIntLit ('-' :: x) = parseIntTail true x := rfl

theorem parseIntLit_nosign (d : Char) (hd : d ≠ '-') (x : Str) :
    parseIntLit (d :: x) = parseIntTail false (d :: x) := by
  rw [parseIntLit.eq_def]
  split
  · rename_i heq
    injection heq with h1 h2
    exact absurd h1 hd
  · rfl

theorem parseIntLit_intDec (i : Int) (rest : Str) (hrest : jsonDelim rest) :
    parseIntLit (intDec i ++ rest) = some (i, rest) := by
  rw [intDec]
  by_cases hneg : i < 0
  · rw [if_pos hneg, List.cons_append, parseIntLit_minus, parseIntTail_run true _ _ hrest]
    rw [if_pos rfl]
    congr 1
    rw [Prod.mk.injEq]
    refine ⟨by omega, rfl⟩
  · rw [if_neg hneg]
    obtain ⟨hne, hdig, hval⟩ := natDec_spec i.natAbs
    obtain ⟨d, ds, hds⟩ : ∃ d ds, natDec i.natAbs = d :: ds := by
      cases h : natDec i.natAbs with
      | nil => exact absurd h hne
      | cons d ds => exact ⟨d, ds, rfl⟩
    rw [hds, List.cons_append, parseIntLit_nosign, ← List.cons_append, ← hds,
      parseIntTail_run false _ _ hrest]
    · rw [if_neg (by simp)]
      congr 1
      rw [Prod.mk.injEq]
      refine ⟨by omega, rfl⟩
    · have := hdig d (by rw [hds]; simp)
      intro hcontra
      subst hcontra
      revert this
      decide



theorem psbStep_quote (rest : Str) : psbStep ('"' :: rest) = .close rest := rfl

theorem psbStep_plain (c : Char) (h32 : 32 ≤ c.toNat) (hq : c ≠ '"') (hb : c ≠ '\\')
    (rest : Str) : psbStep (c :: rest) = .emit [c] rest := by
  rw [psbStep.eq_def]
  split
  · rename_i heq
    injection heq with h1 _
    exact absurd h1 hq
  · rename_i heq
    injection heq with h1 _
    exact absurd h1 hb
  · rename_i heq
    injection heq with h1 _
    exact absurd h1 hb
  · rename_i heq
    injection heq with h1 h2
    subst h1
    subst h2
    rw [if_neg (by omega)]
  · rename_i heq
    cases heq

theorem psbStep_esc (e ch : Char) (he : simpleEsc e = some ch) (hu : e ≠ 'u')
    (rest : Str) : psbStep ('\\' :: e :: rest) = .emit [ch] rest := by
  rw [psbStep.eq_def]
  split
  · rename_i heq
    injection heq with h1 _
    exact absurd h1 (by decide)
  · rename_i heq
    injection heq with h1 h2
    injection h2 with h2 _
    exact absurd h2 hu
  · rename_i heq
    injection heq with h1 h2
    injection h2 with h2 h3
    subst h2
    subst h3
    simp only [he]
  · rename_i x1 c r hn1 hn2 hn3 heq
    injection heq with h1 h2
    exact (hn3 e rest h1.symm h2.symm).elim
  · rename_i heq
    cases heq

theorem psbStep_u (a b c d : Char) (n : Nat) (h : hexQuad a b c d = some n)
    (hns : isHighSur n = false) (rest : Str) :
    psbStep ('\\' :: 'u' :: a :: b :: c :: d :: rest) = .emit [escScalar n] rest := by
  have hcore : psbEscU a b c d rest = .emit [escScalar n] rest := by
    rw [psbEscU.eq_def]
    simp only [h, hns]
    simp
  rw [psbStep.eq_def]
  split
  · rename_i heq
    injection heq with h1 _
    exact absurd h1 (by decide)
  · rename_i heq
    injection heq with h1 h2
    injection h2 with h2 h3
    injection h3 with h3 h4
    injection h4 with h4 h5
    injection h5 with h5 h6
    injection h6 with h6 h7
    subst h3; subst h4; subst h5; subst h6; subst h7
    exact hcore
  · rename_i x1 e r hn heq
    injection heq with h1 h2
    injection h2 with h2a h2b
    exact (hn a b c d rest h2a.symm h2b.symm).elim
  · rename_i x1 c2 r hn1 hn2 hn3 heq
    injection heq with h1 h2
    exact (hn2 a b c d rest h1.symm h2.symm).elim
  · rename_i heq
    cases heq



theorem hexNibble_hexDigitChar (d : Nat) (h : d < 16) : hexNibble (hexDigitChar d) = some d := by
  interval_cases d <;> rfl

theorem hexQuad_00 (t : Nat) (h : t < 256) :
    hexQuad '0' '0' (hexDigitChar (t / 16)) (hexDigitChar (t % 16)) = some t := by
  rw [hexQuad]
  rw [show hexNibble '0' = some 0 from rfl,
    hexNibble_hexDigitChar (t / 16) (by omega),
    hexNibble_hexDigitChar (t % 16) (Nat.mod_lt _ (by omega))]
  show some (((0 * 16 + 0) * 16 + t / 16) * 16 + t % 16) = some t
  congr 1
  omega

theorem escChar_length_pos (c : Char) : 1 ≤ (escChar c).length := by
  rw [escChar]
  split_ifs <;> simp

theorem psbStep_escChar (c : Char) (rest : Str) :
    psbStep (escChar c ++ rest) = .emit [c] rest := by
  rw [escChar]
  split_ifs with h1 h2 h3 h4 h5 h6 h7 h8
  · subst h1
    exact psbStep_esc '"' '"' rfl (by decide) rest
  · subst h2
    exact psbStep_esc '\\' '\\' rfl (by decide) rest
  · rw [show (['\\', 'b'] : Str) ++ rest = '\\' :: 'b' :: rest from rfl,
      psbStep_esc 'b' (Char.ofNat 8) rfl (by decide) rest,
      show Char.ofNat 8 = Char.ofNat c.toNat by rw [h3], Char.ofNat_toNat]
  · rw [show (['\\', 't'] : Str) ++ rest = '\\' :: 't' :: rest from rfl,
      psbStep_esc 't' '\t' rfl (by decide) rest,
      show '\t' = Char.ofNat c.toNat by rw [h4], Char.ofNat_toNat]
  · rw [show (['\\', 'n'] : Str) ++ rest = '\\' :: 'n' :: rest from rfl,
      psbStep_esc 'n' '\n' rfl (by decide) rest,
      show '\n' = Char.ofNat c.toNat by rw [h5], Char.ofNat_toNat]
  · rw [show (['\\', 'f'] : Str) ++ rest = '\\' :: 'f' :: rest from rfl,
      psbStep_esc 'f' (Char.ofNat 12) rfl (by decide) rest,
      show Char.ofNat 12 = Char.ofNat c.toNat by rw [h6], Char.ofNat_toNat]
  · rw [show (['\\', 'r'] : Str) ++ rest = '\\' :: 'r' :: rest from rfl,
      psbStep_esc 'r' '\r' rfl (by decide) rest,
      show '\r' = Char.ofNat c.toNat by rw [h7], Char.ofNat_toNat]
  · rw [show ('\\' :: 'u' :: '0' :: '0' :: hexDigitChar (c.toNat / 16)
        :: hexDigitChar (c.toNat % 16) :: []) ++ rest
        = '\\' :: 'u' :: '0' :: '0' :: hexDigitChar (c.toNat / 16)
        :: hexDigitChar (c.toNat % 16) :: rest from rfl]
    rw [psbStep_u '0' '0' _ _ c.toNat (hexQuad_00 c.toNat (by omega))
      (by rw [isHighSur]; simp; omega) rest]
    rw [show escScalar c.toNat = c by
      rw [escScalar, if_neg, Char.ofNat_toNat]
      rw [isHighSur, isLowSur]
      simp
      omega]
  · rw [show ([c] : Str) ++ rest = c :: rest from rfl]
    exact psbStep_plain c (by omega) h1 h2 rest

theorem psbWith_escStr : ∀ (s : Str) (fuel : Nat) (acc rest : Str),
    (escStr s).length < fuel →
    parseStringBodyWith fuel acc (escStr s ++ '"' :: rest) = some (acc.reverse ++ s, rest) := by
  intro s
  induction s with
  | nil =>
      intro fuel acc rest hf
      obtain ⟨f, rfl⟩ : ∃ f, fuel = f + 1 := ⟨fuel - 1, by omega⟩
      rw [escStr, List.nil_append, parseStringBodyWith, psbStep_quote]
      simp
  | cons c cs ih =>
      intro fuel acc rest hf
      have hlen := escChar_length_pos c
      rw [escStr, List.length_append] at hf
      obtain ⟨f, rfl⟩ : ∃ f, fuel = f + 1 := ⟨fuel - 1, by omega⟩
      rw [escStr, parseStringBodyWith, List.append_assoc, psbStep_escChar c _]
      simp only []
      rw [show ([c] : Str).reverse ++ acc = c :: acc from rfl,
        ih f (c :: acc) rest (by omega)]
      simp

theorem parseStringBody_escStr (s acc rest : Str) :
    parseStringBody acc (escStr s ++ '"' :: rest) = some (acc.reverse ++ s, rest) := by
  rw [parseStringBody]
  apply psbWith_escStr
  rw [List.length_append]
  simp
  omega



theorem dropWs_nonws (c : Char) (cs : Str) (h : jsonWsChar c = false) :
    dropWs (c :: cs) = c :: cs := by
  rw [dropWs, if_neg (by simp [h])]

theorem jsonWsChar_false_of_toNat (c : Char) (h1 : c.toNat ≠ 32) (h2 : c.toNat ≠ 9)
    (h3 : c.toNat ≠ 10) (h4 : c.toNat ≠ 13) : jsonWsChar c = false := by
  rw [jsonWsChar]
  simp only [Bool.or_eq_false_iff, decide_eq_false_iff_not]
  refine ⟨⟨⟨?_, ?_⟩, ?_⟩, ?_⟩ <;> intro h <;> subst h
  · exact h1 rfl
  · exact h2 rfl
  · exact h3 rfl
  · exact h4 rfl

theorem intDec_head (i : Int) : ∀ c r, intDec i = c :: r →
    c = '-' ∨ (48 ≤ c.toNat ∧ c.toNat ≤ 57) := by
  intro c r h
  rw [intDec] at h
  split_ifs at h
  · injection h with h1 _
    exact .inl h1.symm
  · obtain ⟨hne, hdig, _⟩ := natDec_spec i.natAbs
    exact .inr (hdig c (by rw [h]; exact List.mem_cons_self c r))

theorem jsonStringify_ne_nil (x : Json) : jsonStringify x ≠ [] := by
  cases x with
  | null => simp [jsonStringify]
  | bool b => cases b <;> simp [jsonStringify]
  | num i =>
      rw [jsonStringify, intDec]
      split_ifs
      · simp
      · exact (natDec_spec i.natAbs).1
  | str s => simp [jsonStringify, quoteStr]
  | arr items => simp [jsonStringify]
  | obj ms => simp [jsonStringify]

theorem stringify_length_pos (x : Json) : 1 ≤ (jsonStringify x).length := by
  have := jsonStringify_ne_nil x
  cases h : jsonStringify x with
  | nil => exact absurd h this
  | cons c r => simp

theorem stringify_head (x : Json) : ∀ c r, jsonStringify x = c :: r →
    jsonWsChar c = false ∧ c ≠ ']' := by
  cases x with
  | null =>
      intro c r h
      injection h with h1 _
      subst h1
      exact ⟨by decide, by decide⟩
  | bool b =>
      cases b <;> (intro c r h; injection h with h1 _; subst h1; exact ⟨by decide, by decide⟩)
  | num i =>
      intro c r h
      rcases intDec_head i c r h with hc | ⟨h48, h57⟩
      · subst hc
        exact ⟨by decide, by decide⟩
      · refine ⟨jsonWsChar_false_of_toNat c (by omega) (by omega) (by omega) (by omega), ?_⟩
        intro hh
        rw [hh] at h57
        exact absurd h57 (by decide)
  | str s =>
      intro c r h
      injection h with h1 _
      subst h1
      exact ⟨by decide, by decide⟩
  | arr items =>
      intro c r h
      injection h with h1 _
      subst h1
      exact ⟨by decide, by decide⟩
  | obj ms =>
      intro c r h
      injection h with h1 _
      subst h1
      exact ⟨by decide, by decide⟩

theorem parseVal_digit_step (fuel : Nat) (d : Char) (r : Str)
    (h48 : 48 ≤ d.toNat) (h57 : d.toNat ≤ 57) :
    parseVal (fuel + 1) (d :: r) =
    (match parseIntLit (d :: r) with
     | some (i, r2) => some (.num i, r2)
     | none => none) := by
  rw [parseVal.eq_def]
  split
  · rename_i heq
    simp at heq
  rename_i f0 cs0 fnew heqf
  rw [show dropWs (d :: r) = d :: r from
    dropWs_nonws d r (jsonWsChar_false_of_toNat d (by omega) (by omega) (by omega) (by omega))]
  split
  · rename_i heq
    injection heq with h1 _
    rw [h1] at h57
    exact absurd h57 (by decide)
  · rename_i heq
    injection heq with h1 _
    rw [h1] at h57
    exact absurd h57 (by decide)
  · rename_i heq
    injection heq with h1 _
    rw [h1] at h57
    exact absurd h57 (by decide)
  · rename_i heq
    injection heq with h1 _
    rw [h1] at h48
    exact absurd h48 (by decide)
  · rename_i heq
    injection heq with h1 _
    rw [h1] at h57
    exact absurd h57 (by decide)
  · rename_i heq
    injection heq with h1 h2
    subst h1
    subst h2
    rw [if_neg (by intro hh; rw [hh] at h57; exact absurd h57 (by decide)),
      if_pos (by rw [isDecDigit]; simp; omega)]
  · rename_i heq
    cases heq

theorem parseVal_num (fuel : Nat) (i : Int) (rest : Str) (hrest : jsonDelim rest) :
    parseVal (fuel + 1) (intDec i ++ rest) = some (.num i, rest) := by
  have hlit := parseIntLit_intDec i rest hrest
  by_cases hneg : i < 0
  · rw [intDec, if_pos hneg, List.cons_append] at hlit ⊢
    rw [show parseVal (fuel + 1) ('-' :: (natDec i.natAbs ++ rest)) =
      (match parseIntLit ('-' :: (natDec i.natAbs ++ rest)) with
       | some (i, r2) => some (.num i, r2)
       | none => none) from rfl, hlit]
  · rw [intDec, if_neg hneg] at hlit ⊢
    obtain ⟨hne, hdig, hval⟩ := natDec_spec i.natAbs
    obtain ⟨d, ds, hds⟩ : ∃ d ds, natDec i.natAbs = d :: ds := by
      cases h : natDec i.natAbs with
      | nil => exact absurd h hne
      | cons d ds => exact ⟨d, ds, rfl⟩
    have hd48 := (hdig d (by rw [hds]; exact List.mem_cons_self d ds)).1
    have hd57 := (hdig d (by rw [hds]; exact List.mem_cons_self d ds)).2
    rw [hds, List.cons_append] at hlit ⊢
    rw [parseVal_digit_step fuel d _ hd48 hd57, hlit]

theorem parseStringBody_escStr0 (s rest : Str) :
    parseStringBody [] (escStr s ++ '"' :: rest) = some (s, rest) := by
  rw [parseStringBody_escStr]
  simp

theorem parseVal_str (fuel : Nat) (s rest : Str) :
    parseVal (fuel + 1) (jsonStringify (.str s) ++ rest) = some (.str s, rest) := by
  rw [show jsonStringify (.str s) ++ rest = '"' :: (escStr s ++ '"' :: rest) from by
    rw [show jsonStringify (.str s) = '"' :: (escStr s ++ ['"']) from rfl]
    simp]
  rw [show parseVal (fuel + 1) ('"' :: (escStr s ++ '"' :: rest)) =
    (match parseStringBody [] (escStr s ++ '"' :: rest) with
     | some (s, r2) => some (.str s, r2)
     | none => none) from rfl]
  rw [parseStringBody_escStr0]



theorem parseVal_null_step (fuel : Nat) (r : Str) :
    parseVal (fuel + 1) ('n' :: 'u' :: 'l' :: 'l' :: r) = some (.null, r) := rfl

theorem parseVal_true_step (fuel : Nat) (r : Str) :
    parseVal (fuel + 1) ('t' :: 'r' :: 'u' :: 'e' :: r) = some (.bool true, r) := rfl

theorem parseVal_false_step (fuel : Nat) (r : Str) :
    parseVal (fuel + 1) ('f' :: 'a' :: 'l' :: 's' :: 'e' :: r) = some (.bool false, r) := rfl

theorem parseVal_arrnil_step (fuel : Nat) (r : Str) :
    parseVal (fuel + 1) ('[' :: ']' :: r) = some (.arr [], r) := rfl

theorem parseVal_objnil_step (fuel : Nat) (r : Str) :
    parseVal (fuel + 1) (braceL :: braceR :: r) = some (.obj [], r) := rfl

theorem parseVal_arr_step (fuel : Nat) (r : Str) :
    parseVal (fuel + 1) ('[' :: r) =
    (match dropWs r with
     | ']' :: r2 => some (.arr [], r2)
     | other =>
        match parseItems fuel other with
        | some (items, r2) => some (.arr items, r2)
        | none => none) := rfl

theorem parseVal_obj_step (fuel : Nat) (X : Str) :
    parseVal (fuel + 1) (braceL :: ('"' :: X)) =
    (match parseMembers fuel ('"' :: X) with
     | some (ms, r3) => some (.obj ms, r3)
     | none => none) := rfl

theorem parseItems_step (fuel : Nat) (cs : Str) :
    parseItems (fuel + 1) cs =
    (match parseVal fuel cs with
     | none => none
     | some (v, r) =>
        match dropWs r with
        | ',' :: r2 =>
            (match parseItems fuel r2 with
             | some (vs, r3) => some (v :: vs, r3)
             | none => none)
        | ']' :: r2 => some ([v], r2)
        | _ => none) := rfl

theorem parseMembers_step (fuel : Nat) (X : Str) :
    parseMembers (fuel + 1) ('"' :: X) =
    (match parseStringBody [] X with
     | none => none
     | some (k, r1) =>
        match dropWs r1 with
        | ':' :: r2 =>
            (match parseVal fuel r2 with
             | none => none
             | some (v, r3) =>
                match dropWs r3 with
                | ',' :: r4 =>
                    (match parseMembers fuel r4 with
                     | some (ms, r5) => some ((k, v) :: ms, r5)
                     | none => none)
                | d :: r4 => if d = braceR then some ([(k, v)], r4) else none
                | [] => none)
        | _ => none) := rfl

theorem lenItems_cons (x : Json) (xs : List Json) :
    (stringifyItems (x :: xs)).length
      = (jsonStringify x).length + (stringifyItemsTail xs).length := by
  rw [stringifyItems, List.length_append]

theorem lenTail_cons (y : Json) (ys : List Json) :
    (stringifyItemsTail (y :: ys)).length = 1 + (stringifyItems (y :: ys)).length := by
  rw [stringifyItemsTail, stringifyItems]
  simp [List.length_append]
  omega

theorem quoteStr_len2 (k : Str) : 2 ≤ (quoteStr k).length := by
  rw [quoteStr]
  simp

theorem lenMembers_cons (k : Str) (v : Json) (ms : List (Str × Json)) :
    (stringifyMembers ((k, v) :: ms)).length
      = (quoteStr k).length + 1 + (jsonStringify v).length
        + (stringifyMembersTail ms).length := by
  rw [stringifyMembers]
  simp [List.length_append]
  omega

theorem lenMTail_cons (m : Str × Json) (ms : List (Str × Json)) :
    (stringifyMembersTail (m :: ms)).length = 1 + (stringifyMembers (m :: ms)).length := by
  obtain ⟨k, v⟩ := m
  rw [stringifyMembersTail, stringifyMembers]
  simp [List.length_append]
  omega



theorem dropWs_comma (r : Str) : dropWs (',' :: r) = ',' :: r := rfl

theorem dropWs_colon (r : Str) : dropWs (':' :: r) = ':' :: r := rfl

theorem dropWs_rbrack (r : Str) : dropWs (']' :: r) = ']' :: r := rfl

theorem dropWs_rbrace (r : Str) : dropWs (braceR :: r) = braceR :: r := rfl

mutual

theorem parseVal_rt : ∀ (x : Json) (fuel : Nat) (rest : Str), jsonDelim rest →
    (jsonStringify x).length < fuel →
    parseVal fuel (jsonStringify x ++ rest) = some (x, rest)
  | .null, fuel, rest, hd, hf => by
      obtain ⟨f, rfl⟩ : ∃ f, fuel = f + 1 := ⟨fuel - 1, by omega⟩
      exact parseVal_null_step f rest
  | .bool true, fuel, rest, hd, hf => by
      obtain ⟨f, rfl⟩ : ∃ f, fuel = f + 1 := ⟨fuel - 1, by omega⟩
      exact parseVal_true_step f rest
  | .bool false, fuel, rest, hd, hf => by
      obtain ⟨f, rfl⟩ : ∃ f, fuel = f + 1 := ⟨fuel - 1, by omega⟩
      exact parseVal_false_step f rest
  | .num i, fuel, rest, hd, hf => by
      obtain ⟨f, rfl⟩ : ∃ f, fuel = f + 1 := ⟨fuel - 1, by omega⟩
      exact parseVal_num f i rest hd
  | .str s, fuel, rest, hd, hf => by
      obtain ⟨f, rfl⟩ : ∃ f, fuel = f + 1 := ⟨fuel - 1, by omega⟩
      exact parseVal_str f s rest
  | .arr [], fuel, rest, hd, hf => by
      obtain ⟨f, rfl⟩ : ∃ f, fuel = f + 1 := ⟨fuel - 1, by omega⟩
      exact parseVal_arrnil_step f rest
  | .arr (x :: xs), fuel, rest, hd, hf => by
      obtain ⟨f, rfl⟩ : ∃ f, fuel = f + 1 := ⟨fuel - 1, by omega⟩
      rw [show (jsonStringify (.arr (x :: xs))).length
          = (stringifyItems (x :: xs)).length + 2 from by
        rw [show jsonStringify (.arr (x :: xs))
            = '[' :: (stringifyItems (x :: xs) ++ [']']) from rfl]
        simp] at hf
      rw [show jsonStringify (.arr (x :: xs)) ++ rest
          = '[' :: (stringifyItems (x :: xs) ++ ']' :: rest) from by
        rw [show jsonStringify (.arr (x :: xs))
            = '[' :: (stringifyItems (x :: xs) ++ [']']) from rfl]
        simp]
      rw [parseVal_arr_step f _]
      obtain ⟨c, cr, hc⟩ : ∃ c cr, jsonStringify x = c :: cr := by
        cases h : jsonStringify x with
        | nil => exact absurd h (jsonStringify_ne_nil x)
        | cons c cr => exact ⟨c, cr, rfl⟩
      obtain ⟨hws, hnb⟩ := stringify_head x c cr hc
      have hr : stringifyItems (x :: xs) ++ ']' :: rest
          = c :: (cr ++ (stringifyItemsTail xs ++ ']' :: rest)) := by
        rw [stringifyItems, hc]
        simp
      rw [hr, dropWs_nonws c _ hws]
      split
      · rename_i heq
        injection heq with h1 _
        exact absurd h1 hnb
      · rename_i other hno
        rw [← hr, parseItems_rt (x :: xs) f rest (by simp) (by omega)]
  | .obj [], fuel, rest, hd, hf => by
      obtain ⟨f, rfl⟩ : ∃ f, fuel = f + 1 := ⟨fuel - 1, by omega⟩
      exact parseVal_objnil_step f rest
  | .obj ((k, v) :: ms), fuel, rest, hd, hf => by
      obtain ⟨f, rfl⟩ : ∃ f, fuel = f + 1 := ⟨fuel - 1, by omega⟩
      rw [show (jsonStringify (.obj ((k, v) :: ms))).length
          = (stringifyMembers ((k, v) :: ms)).length + 2 from by
        rw [show jsonStringify (.obj ((k, v) :: ms))
            = braceL :: (stringifyMembers ((k, v) :: ms) ++ [braceR]) from rfl]
        simp] at hf
      rw [show jsonStringify (.obj ((k, v) :: ms)) ++ rest
          = braceL :: ('"' :: (escStr k ++ '"' :: (':' :: (jsonStringify v
              ++ (stringifyMembersTail ms ++ braceR :: rest))))) from by
        rw [show jsonStringify (.obj ((k, v) :: ms))
            = braceL :: (stringifyMembers ((k, v) :: ms) ++ [braceR]) from rfl,
          stringifyMembers, quoteStr]
        simp]
      rw [parseVal_obj_step f _]
      have hrec : parseMembers f ('"' :: (escStr k ++ '"' :: (':' :: (jsonStringify v
          ++ (stringifyMembersTail ms ++ braceR :: rest))))) = some ((k, v) :: ms, rest) := by
        have h2 := parseMembers_rt ((k, v) :: ms) f rest (by simp) (by omega)
        rw [show stringifyMembers ((k, v) :: ms) ++ braceR :: rest
            = '"' :: (escStr k ++ '"' :: (':' :: (jsonStringify v
                ++ (stringifyMembersTail ms ++ braceR :: rest)))) from by
          rw [stringifyMembers, quoteStr]
          simp] at h2
        exact h2
      rw [hrec]

theorem parseItems_rt : ∀ (items : List Json) (fuel : Nat) (rest : Str), items ≠ [] →
    (stringifyItems items).length + 1 < fuel →
    parseItems fuel (stringifyItems items ++ ']' :: rest) = some (items, rest)
  | [], _, _, hne, _ => absurd rfl hne
  | x :: xs, fuel, rest, hne, hf => by
      obtain ⟨f, rfl⟩ : ∃ f, fuel = f + 1 := ⟨fuel - 1, by omega⟩
      have hlenx := stringify_length_pos x
      rw [lenItems_cons] at hf
      cases xs with
      | nil =>
          rw [show (stringifyItemsTail ([] : List Json)).length = 0 from rfl] at hf
          rw [show stringifyItems [x] ++ ']' :: rest
              = jsonStringify x ++ ']' :: rest from by
            rw [stringifyItems, stringifyItemsTail]
            simp]
          rw [parseItems_step f _,
            parseVal_rt x f (']' :: rest) (jsonDelim_rbrack rest) (by omega)]
          rfl
      | cons y ys =>
          rw [lenTail_cons y ys] at hf
          rw [show stringifyItems (x :: y :: ys) ++ ']' :: rest
              = jsonStringify x ++ (',' :: (stringifyItems (y :: ys) ++ ']' :: rest)) from by
            rw [stringifyItems, stringifyItemsTail, stringifyItems]
            simp]
          rw [parseItems_step f _,
            parseVal_rt x f (',' :: (stringifyItems (y :: ys) ++ ']' :: rest))
              (jsonDelim_comma _) (by omega)]
          simp only [dropWs_comma]
          rw [parseItems_rt (y :: ys) f rest (by simp) (by omega)]

theorem parseMembers_rt : ∀ (ms : List (Str × Json)) (fuel : Nat) (rest : Str), ms ≠ [] →
    (stringifyMembers ms).length + 1 < fuel →
    parseMembers fuel (stringifyMembers ms ++ braceR :: rest) = some (ms, rest)
  | [], _, _, hne, _ => absurd rfl hne
  | (k, v) :: ms, fuel, rest, hne, hf => by
      obtain ⟨f, rfl⟩ : ∃ f, fuel = f + 1 := ⟨fuel - 1, by omega⟩
      have hq := quoteStr_len2 k
      have hlv := stringify_length_pos v
      rw [lenMembers_cons] at hf
      cases ms with
      | nil =>
          rw [show (stringifyMembersTail ([] : List (Str × Json))).length = 0 from rfl] at hf
          rw [show stringifyMembers [(k, v)] ++ braceR :: rest
              = '"' :: (escStr k ++ '"' :: (':' :: (jsonStringify v ++ braceR :: rest))) from by
            rw [stringifyMembers, stringifyMembersTail, quoteStr]
            simp]
          rw [parseMembers_step f _, parseStringBody_escStr0 k _]
          simp only [dropWs_colon]
          rw [parseVal_rt v f (braceR :: rest) (jsonDelim_rbrace rest) (by omega)]
          simp only [dropWs_rbrace]
          rfl
      | cons m ms' =>
          obtain ⟨k2, v2⟩ := m
          rw [lenMTail_cons (k2, v2) ms'] at hf
          rw [show stringifyMembers ((k, v) :: (k2, v2) :: ms') ++ braceR :: rest
              = '"' :: (escStr k ++ '"' :: (':' :: (jsonStringify v
                  ++ (',' :: (stringifyMembers ((k2, v2) :: ms') ++ braceR :: rest))))) from by
            rw [stringifyMembers, stringifyMembersTail, quoteStr, stringifyMembers]
            simp]
          rw [parseMembers_step f _, parseStringBody_escStr0 k _]
          simp only [dropWs_colon]
          rw [parseVal_rt v f (',' :: (stringifyMembers ((k2, v2) :: ms') ++ braceR :: rest))
              (jsonDelim_comma _) (by omega)]
          simp only [dropWs_comma]
          rw [parseMembers_rt ((k2, v2) :: ms') f rest (by simp) (by omega)]

end



theorem jsonParse_stringify (x : Json) : jsonParse (jsonStringify x) = some x := by
  rw [jsonParse]
  rw [show jsonStringify x = jsonStringify x ++ [] from (List.append_nil _).symm]
  rw [parseVal_rt x _ [] jsonDelim_nil (by simp)]
  rfl

theorem decodeHydrationBlob_create (env : HostEnv) (x : Json) :
    decodeHydrationBlob env (.str (createHydrationBlob x)) = .ok x := by
  simp only [decodeHydrationBlob, createHydrationBlob,
    decodeUrlSafe_encodeUrlSafe env (jsonStringify x), utf8Decode_encode,
    jsonParse_stringify x]

theorem toUrlSafeChar_ne (d : Char) : toUrlSafeChar d ≠ '+' ∧ toUrlSafeChar d ≠ '/' := by
  rw [toUrlSafeChar]
  split_ifs with h1 h2
  · exact ⟨by decide, by decide⟩
  · exact ⟨by decide, by decide⟩
  · exact ⟨h1, h2⟩

theorem encodeUrlSafeBase64_alphabet (s : Str) :
    ∀ c ∈ encodeUrlSafeBase64 s, c ≠ '+' ∧ c ≠ '/' ∧ c ≠ '=' := by
  intro c hc
  rw [encodeUrlSafeBase64, List.mem_filter] at hc
  obtain ⟨hmem, hpad⟩ := hc
  rw [List.mem_map] at hmem
  obtain ⟨d, hd, rfl⟩ := hmem
  exact ⟨(toUrlSafeChar_ne d).1, (toUrlSafeChar_ne d).2, by simpa using hpad⟩

/-- C1 — round trip: for every JSON value `x` (well-formed: distinct keys in
every object, the image of a JSON-serializable JS value after its
drop-undefined rule), decoding the token `createHydrationBlob x` yields
exactly `x` in both host environments, and the token contains none of the
characters `+`, `/`, `=`. -/
theorem blob_round_trip_and_url_safe (env : HostEnv) (x : Json) (hwf : x.wf = true) :
    decodeHydrationBlob env (.str (createHydrationBlob x)) = .ok x ∧
    ∀ c ∈ createHydrationBlob x, c ≠ '+' ∧ c ≠ '/' ∧ c ≠ '=' :=
  ⟨decodeHydrationBlob_create env x,
   fun c hc => encodeUrlSafeBase64_alphabet (jsonStringify x) c hc⟩

def exRoundTripJson : Json :=
  .obj [(['a'], .num (-12)), (['b'], .arr [.null, .bool true, .str ['h', 'i']])]

theorem blob_round_trip_witness :
    exRoundTripJson.wf = true ∧
    (decodeHydrationBlob .node (.str (createHydrationBlob exRoundTripJson))
        = .ok exRoundTripJson ∧
      ∀ c ∈ createHydrationBlob exRoundTripJson, c ≠ '+' ∧ c ≠ '/' ∧ c ≠ '=') :=
  ⟨by decide, blob_round_trip_and_url_safe .node exRoundTripJson (by decide)⟩

/-- C9 counterexample — the claim fails as stated on the Node path:
`Buffer.from(str, 'base64')` never throws, so a token with characters
outside the base64 alphabet is not an error (`"M.Q"` decodes to the JSON
number `1`), and a token whose invalid characters leave unparseable text
(`"!!!!"`) surfaces the same `Invalid JSON in decoded blob` message as a
valid-base64 token holding broken JSON (`"ew"`, the encoding of `"{"`), so
bad base64 is not distinguished from bad JSON. -/
theorem decode_error_claim_counterexample :
    decodeHydrationBlob .node (.str ['M', '.', 'Q']) = .ok (.num 1) ∧
    decodeHydrationBlob .node (.str ['!', '!', '!', '!'])
      = .error "Invalid JSON in decoded blob".toList ∧
    decodeHydrationBlob .node (.str ['e', 'w'])
      = .error "Invalid JSON in decoded blob".toList := by
  refine ⟨by decide, by decide, by decide⟩

/-- C9 (amended) — on the browser path the characterization holds:
`decodeHydrationBlob` fails exactly when the token is not a string, when
`atob` rejects the re-padded re-substituted token (a character outside the
base64 alphabet or an impossible length), or when the decoded text is not
valid JSON; otherwise it returns the parsed value; and the three error
messages are pairwise distinct, the base64 one being
`Failed to decode blob: Invalid base64 input` against
`Invalid JSON in decoded blob`.  (On the Node path `Buffer.from` never
throws, so the base64 arm is unreachable there and invalid characters are
silently skipped; see the counterexample.) -/
theorem decode_error_cases_browser :
    (decodeHydrationBlob .browser .nonString = .error "Input must be a string".toList) ∧
    (∀ s, atobBytes (padBase64 (unSubstitute s)) = none →
        decodeHydrationBlob .browser (.str s)
          = .error "Failed to decode blob: Invalid base64 input".toList) ∧
    (∀ s bytes, atobBytes (padBase64 (unSubstitute s)) = some bytes →
        jsonParse (utf8Decode bytes) = none →
        decodeHydrationBlob .browser (.str s)
          = .error "Invalid JSON in decoded blob".toList) ∧
    (∀ s bytes j, atobBytes (padBase64 (unSubstitute s)) = some bytes →
        jsonParse (utf8Decode bytes) = some j →
        decodeHydrationBlob .browser (.str s) = .ok j) ∧
    ("Failed to decode blob: Invalid base64 input".toList
      ≠ ("Invalid JSON in decoded blob".toList : Str)) := by
  refine ⟨rfl, ?_, ?_, ?_, by decide⟩
  · intro s h
    simp only [decodeHydrationBlob, decodeUrlSafeBase64, h]
    rfl
  · intro s bytes h hp
    simp only [decodeHydrationBlob, decodeUrlSafeBase64, h, hp]
  · intro s bytes j h hp
    simp only [decodeHydrationBlob, decodeUrlSafeBase64, h, hp]

theorem decode_error_cases_browser_witness :
    decodeHydrationBlob .browser (.str ['!', '!', '!', '!'])
      = .error "Failed to decode blob: Invalid base64 input".toList ∧
    decodeHydrationBlob .browser (.str ['e', 'w'])
      = .error "Invalid JSON in decoded blob".toList ∧
    decodeHydrationBlob .browser (.str ['M', 'Q']) = .ok (.num 1) :=
  ⟨decode_error_cases_browser.2.1 ['!', '!', '!', '!'] (by decide),
   decode_error_cases_browser.2.2.1 ['e', 'w'] [123] (by decide) (by decide),
   decode_error_cases_browser.2.2.2.1 ['M', 'Q'] [49] (.num 1) (by decide) (by decide)⟩

end HTU
